import Mathlib

/-!
Verification of the knowledge-graph engine (`backend/core/engines/graph_engine.py`),
the relationship detector (`backend/core/platform/graph/relationship_detector.py`)
and the data sampler (`backend/core/platform/graph/data_sampler.py`).

Modelling conventions:
* Python floats are modelled as exact rationals (`ℚ`); the claims are stated
  in exact arithmetic.
* Python dicts are modelled as insertion-ordered association lists, with
  first-occurrence lookup; `defaultdict(list)` is an association list whose
  missing keys read as `[]`.
* Enumerations (`RelationType`, `EntityType`) are modelled as strings, and
  the `properties` / `created_at` / `metadata` payload fields, which play no
  role in any verified operation, are omitted.
-/

/-- `GraphNode` of `graph_models.py`: `node_id` and `entity_type`
(the `properties` map and `created_at` are not used by the verified code). -/
structure GraphNode where
  node_id : String
  entity_type : String
deriving DecidableEq, Repr

/-- `GraphEdge` of `graph_models.py`. `strength` is the float field,
modelled as an exact rational. -/
structure GraphEdge where
  from_node : String
  to_node : String
  relation_type : String
  strength : ℚ
deriving DecidableEq, Repr

/-- `GraphEdge.reverse`: the reverse edge used for bidirectional insertion. -/
def GraphEdge.reverse (e : GraphEdge) : GraphEdge :=
  { from_node := e.to_node
    to_node := e.from_node
    relation_type := e.relation_type
    strength := e.strength }

/-- `GraphPath` of `graph_models.py`. -/
structure GraphPath where
  start_node : String
  end_node : String
  nodes : List String
  edges : List GraphEdge
  total_strength : ℚ
deriving DecidableEq, Repr

/-- Lookup in a Python dict modelled as an association list
(first occurrence wins; lists built by `dinsert` have unique keys). -/
def dget {α : Type} : List (String × α) → String → Option α
  | [], _ => none
  | p :: m, k => if p.1 = k then some p.2 else dget m k

/-- `d[k] = v` on a Python dict: replace the value under an existing key in
place, else append the new key. -/
def dinsert {α : Type} : List (String × α) → String → α → List (String × α)
  | [], k, v => [(k, v)]
  | p :: m, k, v => if p.1 = k then (k, v) :: m else p :: dinsert m k v

/-- `d[k].append(e)` on a `defaultdict(list)`. -/
def dappend {α : Type} : List (String × List α) → String → α → List (String × List α)
  | [], k, e => [(k, [e])]
  | p :: m, k, e => if p.1 = k then (p.1, p.2 ++ [e]) :: m else p :: dappend m k e

/-- `d.get(k, [])` on a `defaultdict(list)`. -/
def dgetD {α : Type} (m : List (String × List α)) (k : String) : List α :=
  (dget m k).getD []

/-- The state of `GraphEngine`: `nodes` maps a node id to its node,
`edges` maps a node id to its outgoing edges, `reverse_edges` maps a node id
to its incoming edges. -/
structure GraphEngine where
  nodes : List (String × GraphNode)
  edges : List (String × List GraphEdge)
  reverse_edges : List (String × List GraphEdge)
deriving DecidableEq, Repr

/-- `GraphEngine.__init__`. -/
def GraphEngine.empty : GraphEngine := ⟨[], [], []⟩

/-- `GraphEngine.add_node`: `self.nodes[node.node_id] = node`. -/
def add_node (g : GraphEngine) (n : GraphNode) : GraphEngine :=
  { g with nodes := dinsert g.nodes n.node_id n }

/-- `GraphEngine.add_edge`. -/
def add_edge (g : GraphEngine) (e : GraphEdge) (bidirectional : Bool) : GraphEngine :=
  let g1 : GraphEngine :=
    { g with
      edges := dappend g.edges e.from_node e
      reverse_edges := dappend g.reverse_edges e.to_node e }
  if bidirectional then
    let r := e.reverse
    { g1 with
      edges := dappend g1.edges r.from_node r
      reverse_edges := dappend g1.reverse_edges r.to_node r }
  else g1

/-- `GraphEngine.get_node`. -/
def get_node (g : GraphEngine) (node_id : String) : Option GraphNode :=
  dget g.nodes node_id

/-- `GraphEngine.get_outgoing_edges`: `self.edges.get(node_id, [])`. -/
def get_outgoing_edges (g : GraphEngine) (node_id : String) : List GraphEdge :=
  dgetD g.edges node_id

/-- `GraphEngine.get_incoming_edges`: `self.reverse_edges.get(node_id, [])`. -/
def get_incoming_edges (g : GraphEngine) (node_id : String) : List GraphEdge :=
  dgetD g.reverse_edges node_id

/-- `GraphEngine.get_all_edges`: outgoing followed by incoming. -/
def get_all_edges (g : GraphEngine) (node_id : String) : List GraphEdge :=
  get_outgoing_edges g node_id ++ get_incoming_edges g node_id

/-- `GraphEngine.get_neighbors`.  The Python code collects the opposite
endpoint of every (optionally type-filtered) incident edge into a `set`;
the set is modelled by `List.dedup` (which Python set iteration order the
`list(...)` call exposes is unspecified, and no claim depends on it). -/
def get_neighbors (g : GraphEngine) (node_id : String) (relation_type : Option String) :
    List String :=
  let es : List GraphEdge := get_all_edges g node_id
  let es2 : List GraphEdge := match relation_type with
    | some r => es.filter (fun e => e.relation_type == r)
    | none => es
  (es2.map (fun e => if e.from_node = node_id then e.to_node else e.from_node)).dedup

theorem dget_dinsert_self {α : Type} (m : List (String × α)) (k : String) (v : α) :
    dget (dinsert m k v) k = some v := by
  induction m with
  | nil => simp [dinsert, dget]
  | cons p m ih =>
    by_cases h : p.1 = k
    · simp [dinsert, h, dget]
    · simp [dinsert, h, dget, ih]

theorem dget_dinsert_ne {α : Type} (m : List (String × α)) (k k' : String) (v : α)
    (h : k' ≠ k) : dget (dinsert m k v) k' = dget m k' := by
  have hk : k ≠ k' := fun h' => h h'.symm
  induction m with
  | nil => simp [dinsert, dget, hk]
  | cons p m ih =>
    by_cases hp : p.1 = k
    · subst hp
      simp [dinsert, dget, hk]
    · by_cases hp' : p.1 = k'
      · simp [dinsert, hp, dget, hp', h]
      · simp [dinsert, hp, dget, hp', ih]

/-- C10: `add_node` never fails and is last-write-wins: it stores the node
under its id (replacing any previous node there), leaves every other id's
stored node unchanged, and leaves both edge adjacency maps (outgoing and
incoming edge lists of every node) completely unchanged. -/
theorem add_node_frame (g : GraphEngine) (n : GraphNode) :
    (add_node g n).edges = g.edges ∧
    (add_node g n).reverse_edges = g.reverse_edges ∧
    get_node (add_node g n) n.node_id = some n ∧
    ∀ k, k ≠ n.node_id → get_node (add_node g n) k = get_node g k := by
  refine ⟨rfl, rfl, dget_dinsert_self g.nodes n.node_id n, ?_⟩
  intro k hk
  exact dget_dinsert_ne g.nodes n.node_id k n hk

/-- Witness for `add_node_frame` at a concrete graph: replacing node `"A"`
leaves the edge maps and the node stored under `"B"` unchanged. -/
theorem add_node_frame_witness :
    letI g : GraphEngine :=
      ⟨[("A", ⟨"A", "customer"⟩), ("B", ⟨"B", "invoice"⟩)],
       [("A", [⟨"A", "B", "customer_invoice", 1⟩])],
       [("B", [⟨"A", "B", "customer_invoice", 1⟩])]⟩
    letI n : GraphNode := ⟨"A", "contact"⟩
    (add_node g n).edges = g.edges ∧
    get_node (add_node g n) "A" = some n ∧
    get_node (add_node g n) "B" = get_node g "B" := by
  obtain ⟨h1, _, h3, h4⟩ := add_node_frame
    ⟨[("A", ⟨"A", "customer"⟩), ("B", ⟨"B", "invoice"⟩)],
     [("A", [⟨"A", "B", "customer_invoice", 1⟩])],
     [("B", [⟨"A", "B", "customer_invoice", 1⟩])]⟩
    ⟨"A", "contact"⟩
  exact ⟨h1, h3, h4 "B" (by decide)⟩

/-- Building a graph by a sequence of `add_edge` calls (edge, bidirectional). -/
def build_graph (ops : List (GraphEdge × Bool)) : GraphEngine :=
  ops.foldl (fun g p => add_edge g p.1 p.2) GraphEngine.empty

theorem get_neighbors_none_eq (g : GraphEngine) (id : String) :
    get_neighbors g id none =
      ((get_all_edges g id).map
        (fun e => if e.from_node = id then e.to_node else e.from_node)).dedup := rfl

theorem dget_dappend {α : Type} (m : List (String × List α)) (k' : String) (x : α)
    (k : String) :
    dget (dappend m k' x) k =
      if k' = k then some ((dgetD m k) ++ [x]) else dget m k := by
  induction m with
  | nil =>
    by_cases hk : k' = k
    · simp [dappend, dget, dgetD, hk]
    · simp [dappend, dget, dgetD, hk]
  | cons p m ih =>
    by_cases hp : p.1 = k'
    · subst hp
      by_cases hk : p.1 = k
      · subst hk
        simp [dappend, dget, dgetD]
      · simp [dappend, dget, hk]
    · by_cases hk : p.1 = k
      · subst hk
        have h1 : ¬ k' = p.1 := fun h => hp h.symm
        simp [dappend, hp, dget, h1]
      · simp [dappend, hp, dget, hk, ih, dgetD]

theorem mem_dgetD_dappend {α : Type} (m : List (String × List α)) (k k' : String)
    (x e : α) (h : e ∈ dgetD (dappend m k' x) k) : e ∈ dgetD m k ∨ e = x := by
  rw [dgetD, dget_dappend] at h
  by_cases hk : k' = k
  · rw [if_pos hk] at h
    simp only [Option.getD_some, List.mem_append, List.mem_singleton] at h
    exact h
  · rw [if_neg hk] at h
    exact Or.inl h

theorem mem_all_edges_add_edge (g : GraphEngine) (ed : GraphEdge) (b : Bool)
    (id : String) (e : GraphEdge) (h : e ∈ get_all_edges (add_edge g ed b) id) :
    e ∈ get_all_edges g id ∨ e = ed ∨ e = ed.reverse := by
  rcases b with _ | _
  · simp only [add_edge, if_neg Bool.false_ne_true, get_all_edges, get_outgoing_edges,
      get_incoming_edges, List.mem_append] at h
    rcases h with h | h
    · rcases mem_dgetD_dappend _ _ _ _ _ h with h' | h'
      · exact Or.inl (List.mem_append_left _ h')
      · exact Or.inr (Or.inl h')
    · rcases mem_dgetD_dappend _ _ _ _ _ h with h' | h'
      · exact Or.inl (List.mem_append_right _ h')
      · exact Or.inr (Or.inl h')
  · simp only [add_edge, if_pos rfl, get_all_edges, get_outgoing_edges,
      get_incoming_edges, List.mem_append] at h
    rcases h with h | h
    · rcases mem_dgetD_dappend _ _ _ _ _ h with h' | h'
      · rcases mem_dgetD_dappend _ _ _ _ _ h' with h'' | h''
        · exact Or.inl (List.mem_append_left _ h'')
        · exact Or.inr (Or.inl h'')
      · exact Or.inr (Or.inr h')
    · rcases mem_dgetD_dappend _ _ _ _ _ h with h' | h'
      · rcases mem_dgetD_dappend _ _ _ _ _ h' with h'' | h''
        · exact Or.inl (List.mem_append_right _ h'')
        · exact Or.inr (Or.inl h'')
      · exact Or.inr (Or.inr h')

theorem mem_all_edges_build_aux (ops : List (GraphEdge × Bool)) :
    ∀ (g : GraphEngine) (id : String) (e : GraphEdge),
      e ∈ get_all_edges (ops.foldl (fun g p => add_edge g p.1 p.2) g) id →
      e ∈ get_all_edges g id ∨ ∃ p ∈ ops, e = p.1 ∨ e = p.1.reverse := by
  induction ops with
  | nil => intro g id e h; exact Or.inl h
  | cons op ops ih =>
    intro g id e h
    rcases ih (add_edge g op.1 op.2) id e h with h' | ⟨p, hp, hpe⟩
    · rcases mem_all_edges_add_edge g op.1 op.2 id e h' with h'' | h''
      · exact Or.inl h''
      · exact Or.inr ⟨op, List.mem_cons_self _ _, h''⟩
    · exact Or.inr ⟨p, List.mem_cons_of_mem _ hp, hpe⟩

theorem self_mem_neighbors_self_loop (g : GraphEngine) (id : String)
    (h : id ∈ get_neighbors g id none) :
    ∃ e ∈ get_all_edges g id, e.from_node = id ∧ e.to_node = id := by
  rw [get_neighbors_none_eq, List.mem_dedup, List.mem_map] at h
  obtain ⟨e, he, heq⟩ := h
  by_cases hf : e.from_node = id
  · rw [if_pos hf] at heq
    exact ⟨e, he, hf, heq⟩
  · rw [if_neg hf] at heq
    exact absurd heq hf

/-- C8: `get_neighbors` returns a duplicate-free list (for every graph state),
and on a graph built by `add_edge` calls it contains the queried id itself
only if one of the added edges is an explicit self-loop at that id. -/
theorem get_neighbors_nodup_self_loop (g : GraphEngine) (ops : List (GraphEdge × Bool))
    (id : String) :
    (get_neighbors g id none).Nodup ∧
    (id ∈ get_neighbors (build_graph ops) id none →
      ∃ p ∈ ops, p.1.from_node = id ∧ p.1.to_node = id) := by
  constructor
  · rw [get_neighbors_none_eq]
    exact List.nodup_dedup _
  · intro h
    obtain ⟨e, he, hf, ht⟩ := self_mem_neighbors_self_loop _ _ h
    rcases mem_all_edges_build_aux ops GraphEngine.empty id e he with h0 | ⟨p, hp, hpe⟩
    · simp [get_all_edges, get_outgoing_edges, get_incoming_edges, GraphEngine.empty,
        dgetD, dget] at h0
    · refine ⟨p, hp, ?_⟩
      rcases hpe with rfl | rfl
      · exact ⟨hf, ht⟩
      · exact ⟨ht, hf⟩

/-- Witness for `get_neighbors_nodup_self_loop`: a graph with a self-loop at
`"A"` does list `"A"` among its own neighbors, and the self-loop is found
among the added edges. -/
theorem get_neighbors_nodup_self_loop_witness :
    letI ops : List (GraphEdge × Bool) :=
      [(⟨"A", "A", "customer_contact", 1⟩, false), (⟨"A", "B", "customer_invoice", 1⟩, true)]
    (get_neighbors (build_graph ops) "A" none).Nodup ∧
    (∃ p ∈ ops, p.1.from_node = "A" ∧ p.1.to_node = "A") := by
  refine ⟨(get_neighbors_nodup_self_loop (build_graph
    [(⟨"A", "A", "customer_contact", 1⟩, false), (⟨"A", "B", "customer_invoice", 1⟩, true)])
    [(⟨"A", "A", "customer_contact", 1⟩, false), (⟨"A", "B", "customer_invoice", 1⟩, true)]
    "A").1, ?_⟩
  exact (get_neighbors_nodup_self_loop (build_graph
    [(⟨"A", "A", "customer_contact", 1⟩, false), (⟨"A", "B", "customer_invoice", 1⟩, true)])
    [(⟨"A", "A", "customer_contact", 1⟩, false), (⟨"A", "B", "customer_invoice", 1⟩, true)]
    "A").2 (by decide)

/-- `GraphEngine.calculate_relationship_strength`.  `max(e.strength for e in
direct_edges)` is modelled by a left fold of `max`; the shared-neighbor count
is the length of the filtered (duplicate-free) neighbor list, matching the
Python set intersection. -/
def calculate_relationship_strength (g : GraphEngine) (from_node_id to_node_id : String) :
    ℚ :=
  match (get_outgoing_edges g from_node_id).filter (fun e => e.to_node == to_node_id) with
  | e :: es => (es.map GraphEdge.strength).foldl max e.strength
  | [] =>
    let from_neighbors := get_neighbors g from_node_id none
    let to_neighbors := get_neighbors g to_node_id none
    let shared := from_neighbors.filter (fun v => to_neighbors.contains v)
    if shared ≠ [] then min ((shared.length : ℚ) / 10) (1/2) else 0

theorem le_foldl_max (l : List ℚ) (a : ℚ) : a ≤ l.foldl max a := by
  induction l generalizing a with
  | nil => exact le_refl a
  | cons b l ih => exact le_trans (le_max_left a b) (ih (max a b))

theorem mem_le_foldl_max (l : List ℚ) (a x : ℚ) (hx : x ∈ l) : x ≤ l.foldl max a := by
  induction l generalizing a with
  | nil => cases hx
  | cons b l ih =>
    rcases List.mem_cons.mp hx with rfl | hx'
    · exact le_trans (le_max_right a x) (le_foldl_max l (max a x))
    · exact ih (max a b) hx'

theorem foldl_max_mem (l : List ℚ) (a : ℚ) : l.foldl max a = a ∨ l.foldl max a ∈ l := by
  induction l generalizing a with
  | nil => exact Or.inl rfl
  | cons b l ih =>
    rcases ih (max a b) with h | h
    · rcases max_choice a b with hab | hab
      · exact Or.inl (by rw [List.foldl_cons, h, hab])
      · exact Or.inr (by rw [List.foldl_cons, h, hab]; exact List.mem_cons_self _ _)
    · exact Or.inr (List.mem_cons_of_mem _ h)

theorem mem_dgetD_mem {α : Type} (m : List (String × List α)) (k : String) (e : α)
    (h : e ∈ dgetD m k) : ∃ p ∈ m, e ∈ p.2 := by
  induction m with
  | nil => simp [dgetD, dget] at h
  | cons p m ih =>
    by_cases hp : p.1 = k
    · rw [dgetD, dget, if_pos hp] at h
      exact ⟨p, List.mem_cons_self _ _, h⟩
    · rw [dgetD, dget, if_neg hp] at h
      obtain ⟨q, hq, hqe⟩ := ih h
      exact ⟨q, List.mem_cons_of_mem _ hq, hqe⟩

/-- C3: `calculate_relationship_strength(a, b)` returns the maximum strength
of the direct edges `a→b` when one or more exist; otherwise, writing `S` for
the intersection of the neighbor sets of `a` and `b`, it returns
`min(|S| / 10, 0.5)` when `S` is nonempty and `0` otherwise.  Under the data
model's contract that every stored edge strength lies in `[0,1]`, the result
lies in `[0,1]`. -/
theorem relationship_strength_spec (g : GraphEngine) (a b : String)
    (hs : ∀ p ∈ g.edges, ∀ e ∈ p.2, 0 ≤ e.strength ∧ e.strength ≤ 1) :
    (((get_outgoing_edges g a).filter (fun e => e.to_node == b)) ≠ [] →
      (calculate_relationship_strength g a b ∈
        ((get_outgoing_edges g a).filter (fun e => e.to_node == b)).map GraphEdge.strength ∧
       ∀ e ∈ (get_outgoing_edges g a).filter (fun e => e.to_node == b),
         e.strength ≤ calculate_relationship_strength g a b)) ∧
    (((get_outgoing_edges g a).filter (fun e => e.to_node == b)) = [] →
      calculate_relationship_strength g a b =
        (if ((get_neighbors g a none).toFinset ∩ (get_neighbors g b none).toFinset).Nonempty
         then min
           ((((get_neighbors g a none).toFinset ∩ (get_neighbors g b none).toFinset).card : ℚ)
             / 10) (1/2)
         else 0)) ∧
    0 ≤ calculate_relationship_strength g a b ∧
    calculate_relationship_strength g a b ≤ 1 := by
  have hAnodup : (get_neighbors g a none).Nodup := by
    rw [get_neighbors_none_eq]; exact List.nodup_dedup _
  have hfin : ((get_neighbors g a none).filter
      (fun v => (get_neighbors g b none).contains v)).toFinset =
      (get_neighbors g a none).toFinset ∩ (get_neighbors g b none).toFinset := by
    ext v
    simp [List.mem_filter]
  have hcard : (((get_neighbors g a none).toFinset ∩ (get_neighbors g b none).toFinset)).card =
      ((get_neighbors g a none).filter
        (fun v => (get_neighbors g b none).contains v)).length := by
    rw [← hfin]
    exact List.toFinset_card_of_nodup (hAnodup.filter _)
  rcases hd : (get_outgoing_edges g a).filter (fun e => e.to_node == b) with _ | ⟨e, es⟩
  · have hc : calculate_relationship_strength g a b =
        (if ((get_neighbors g a none).filter
              (fun v => (get_neighbors g b none).contains v)) ≠ []
         then min ((((get_neighbors g a none).filter
              (fun v => (get_neighbors g b none).contains v)).length : ℚ) / 10) (1/2)
         else 0) := by
      simp only [calculate_relationship_strength, hd]
    have hiff : (((get_neighbors g a none).filter
        (fun v => (get_neighbors g b none).contains v)) ≠ []) ↔
        ((get_neighbors g a none).toFinset ∩ (get_neighbors g b none).toFinset).Nonempty := by
      rw [← List.length_pos, ← hcard, Finset.card_pos]
    have hc2 : calculate_relationship_strength g a b =
        (if ((get_neighbors g a none).toFinset ∩ (get_neighbors g b none).toFinset).Nonempty
         then min
           ((((get_neighbors g a none).toFinset ∩ (get_neighbors g b none).toFinset).card : ℚ)
             / 10) (1/2)
         else 0) := by
      rw [hc]
      by_cases hne : ((get_neighbors g a none).filter
          (fun v => (get_neighbors g b none).contains v)) = []
      · rw [if_neg (not_not_intro hne), if_neg (fun hn => (hiff.mpr hn) hne)]
      · rw [if_pos hne, if_pos (hiff.mp hne), hcard]
    refine ⟨fun h => absurd hd h, fun _ => hc2, ?_, ?_⟩
    · rw [hc]
      by_cases hne : ((get_neighbors g a none).filter
          (fun v => (get_neighbors g b none).contains v)) = []
      · rw [if_neg (not_not_intro hne)]
      · rw [if_pos hne]
        refine le_min (by positivity) (by norm_num)
    · rw [hc]
      by_cases hne : ((get_neighbors g a none).filter
          (fun v => (get_neighbors g b none).contains v)) = []
      · rw [if_neg (not_not_intro hne)]; norm_num
      · rw [if_pos hne]
        exact le_trans (min_le_right _ _) (by norm_num)
  · have hc : calculate_relationship_strength g a b =
        (es.map GraphEdge.strength).foldl max e.strength := by
      simp only [calculate_relationship_strength, hd]
    have hmem : calculate_relationship_strength g a b ∈
        ((e :: es).map GraphEdge.strength) := by
      rw [hc]
      rcases foldl_max_mem (es.map GraphEdge.strength) e.strength with h | h
      · rw [h]; exact List.mem_map_of_mem _ (List.mem_cons_self _ _)
      · rcases List.mem_map.mp h with ⟨f, hf, hfe⟩
        rw [← hfe]
        exact List.mem_map_of_mem _ (List.mem_cons_of_mem _ hf)
    have hbounds : ∀ f ∈ (e :: es), 0 ≤ f.strength ∧ f.strength ≤ 1 := by
      intro f hf
      have hf' : f ∈ (get_outgoing_edges g a).filter (fun e => e.to_node == b) := by
        rw [hd]; exact hf
      have hf'' : f ∈ get_outgoing_edges g a := (List.mem_filter.mp hf').1
      obtain ⟨p, hp, hpe⟩ := mem_dgetD_mem g.edges a f hf''
      exact hs p hp f hpe
    refine ⟨fun _ => ⟨by rw [hd]; exact hmem, ?_⟩,
      fun h => (List.cons_ne_nil e es (hd.symm.trans h)).elim, ?_, ?_⟩
    · intro f hf
      rw [hd] at hf
      rw [hc]
      rcases List.mem_cons.mp hf with rfl | hf'
      · exact le_foldl_max _ _
      · exact mem_le_foldl_max _ _ _ (List.mem_map_of_mem _ hf')
    · rcases List.mem_map.mp hmem with ⟨f, hf, hfe⟩
      rw [← hfe]
      exact (hbounds f hf).1
    · rcases List.mem_map.mp hmem with ⟨f, hf, hfe⟩
      rw [← hfe]
      exact (hbounds f hf).2

/-- Witness for `relationship_strength_spec` at a concrete graph with one
direct edge of strength 9/10. -/
theorem relationship_strength_spec_witness :
    letI g : GraphEngine :=
      ⟨[], [("A", [⟨"A", "B", "customer_invoice", 9/10⟩])],
       [("B", [⟨"A", "B", "customer_invoice", 9/10⟩])]⟩
    0 ≤ calculate_relationship_strength g "A" "B" ∧
    calculate_relationship_strength g "A" "B" ≤ 1 :=
  (relationship_strength_spec
    ⟨[], [("A", [⟨"A", "B", "customer_invoice", 9/10⟩])],
     [("B", [⟨"A", "B", "customer_invoice", 9/10⟩])]⟩
    "A" "B" (by
      intro p hp e he
      simp only [List.mem_singleton] at hp
      subst hp
      simp only [List.mem_singleton] at he
      subst he
      norm_num)).2.2

/-- The BFS loop of `GraphEngine.find_path`.  A queue entry is
`(current node, node path, edge path, accumulated strength)`, exactly the
tuple the Python deque holds; `visited` is the visited set.  The Python
`while queue:` loop is modelled with explicit fuel (the loop terminates, and
`find_path` passes fuel exceeding the number of possible iterations; no
verified claim depends on the fuel being large enough). -/
def fpLoop (g : GraphEngine) (start_node_id end_node_id : String) (max_depth : Nat) :
    Nat → List (String × List String × List GraphEdge × ℚ) → List String → Option GraphPath
  | 0, _, _ => none
  | _ + 1, [], _ => none
  | fuel + 1, (cur, path, path_edges, path_strength) :: queue, visited =>
    if cur = end_node_id then
      some ⟨start_node_id, end_node_id, path, path_edges, path_strength⟩
    else if path.length > max_depth ∨ cur ∈ visited then
      fpLoop g start_node_id end_node_id max_depth fuel queue visited
    else
      fpLoop g start_node_id end_node_id max_depth fuel
        (queue ++ ((get_outgoing_edges g cur).filter
            (fun ed => !((cur :: visited).contains ed.to_node))).map
          (fun ed => (ed.to_node, path ++ [ed.to_node], path_edges ++ [ed],
            path_strength * ed.strength)))
        (cur :: visited)

/-- Fuel bound for `fpLoop`: with `E` stored outgoing-edge entries, at most
`E + 1` distinct nodes are ever expanded and each expansion enqueues at most
`E` entries, so `(E+1)*(E+1) + 1` exceeds the number of loop iterations. -/
def find_path_fuel (g : GraphEngine) : Nat :=
  ((g.edges.map (fun p => p.2.length)).sum + 1) *
    ((g.edges.map (fun p => p.2.length)).sum + 1)

/-- `GraphEngine.find_path`. -/
def find_path (g : GraphEngine) (start_node_id end_node_id : String) (max_depth : Nat) :
    Option GraphPath :=
  if get_node g start_node_id = none ∨ get_node g end_node_id = none then none
  else
    fpLoop g start_node_id end_node_id max_depth (find_path_fuel g + 1)
      [(start_node_id, [start_node_id], [], 1)] []

/-- A directed path in the graph's outgoing adjacency structure: `es` leads
from `a` to `b`, each edge taken from the outgoing list of the node reached
so far. -/
def isChain (g : GraphEngine) : String → String → List GraphEdge → Prop
  | a, b, [] => a = b
  | a, b, e :: es => e ∈ get_outgoing_edges g a ∧ isChain g e.to_node b es

theorem isChain_snoc (g : GraphEngine) (c : String) (e : GraphEdge)
    (he : e ∈ get_outgoing_edges g c) :
    ∀ (es : List GraphEdge) (a : String), isChain g a c es →
      isChain g a e.to_node (es ++ [e]) := by
  intro es
  induction es with
  | nil =>
    intro a h
    have ha : a = c := h
    subst ha
    exact ⟨he, rfl⟩
  | cons f es ih =>
    intro a h
    obtain ⟨h1, h2⟩ := h
    exact ⟨h1, ih _ h2⟩

theorem fpLoop_sound (g : GraphEngine) (s endId : String) (k : Nat) :
    ∀ (fuel : Nat) (q : List (String × List String × List GraphEdge × ℚ))
      (visited : List String) (p : GraphPath),
      (∀ cur path pedges pstr, (cur, path, pedges, pstr) ∈ q →
        isChain g s cur pedges ∧ path = s :: pedges.map GraphEdge.to_node ∧
        pstr = (pedges.map GraphEdge.strength).prod ∧ path.length ≤ k + 1) →
      fpLoop g s endId k fuel q visited = some p →
      p.start_node = s ∧ p.end_node = endId ∧ isChain g s endId p.edges ∧
      p.nodes = s :: p.edges.map GraphEdge.to_node ∧
      p.total_strength = (p.edges.map GraphEdge.strength).prod ∧
      p.nodes.length ≤ k + 1 := by
  intro fuel
  induction fuel with
  | zero => intro q visited p _ h; simp [fpLoop] at h
  | succ fuel ih =>
    intro q visited p hinv h
    cases q with
    | nil => simp [fpLoop] at h
    | cons st queue =>
      obtain ⟨cur, path, pedges, pstr⟩ := st
      simp only [fpLoop] at h
      by_cases hc : cur = endId
      · rw [if_pos hc] at h
        obtain ⟨h1, h2, h3, h4⟩ :=
          hinv cur path pedges pstr (List.mem_cons_self _ _)
        have hp : p = ⟨s, endId, path, pedges, pstr⟩ := (Option.some.inj h).symm
        subst hp
        subst hc
        exact ⟨rfl, rfl, h1, h2, h3, h4⟩
      · rw [if_neg hc] at h
        by_cases hd : path.length > k ∨ cur ∈ visited
        · rw [if_pos hd] at h
          exact ih queue visited p
            (fun c pa pe ps hm => hinv c pa pe ps (List.mem_cons_of_mem _ hm)) h
        · rw [if_neg hd] at h
          refine ih _ _ p ?_ h
          intro c pa pe ps hm
          rcases List.mem_append.mp hm with hm | hm
          · exact hinv c pa pe ps (List.mem_cons_of_mem _ hm)
          · obtain ⟨hinv1, hinv2, hinv3, hinv4⟩ :=
              hinv cur path pedges pstr (List.mem_cons_self _ _)
            obtain ⟨e, he, heq⟩ := List.mem_map.mp hm
            simp only [Prod.mk.injEq] at heq
            obtain ⟨rfl, rfl, rfl, rfl⟩ := heq
            have heo : e ∈ get_outgoing_edges g cur := (List.mem_filter.mp he).1
            have hlen : path.length ≤ k := by
              rcases Nat.lt_or_ge k path.length with hlt | hge
              · exact absurd (Or.inl hlt) hd
              · exact hge
            refine ⟨isChain_snoc g cur e heo pedges s hinv1, ?_, ?_, ?_⟩
            · rw [hinv2, List.map_append]
              simp
            · rw [hinv3, List.map_append, List.prod_append]
              simp
            · rw [List.length_append]
              simpa using Nat.succ_le_succ hlen

/-- C1: `find_path(a, b, max_depth=k)` is sound: it returns null whenever no
directed path from `a` to `b` of length at most `k` exists (equivalently,
any returned path is a real directed path of at most `k` edges), and any
returned path has `total_strength` equal to the product of the traversed
edges' strengths and exactly one more node than edges. -/
theorem find_path_sound (g : GraphEngine) (a b : String) (k : Nat) :
    ((¬ ∃ es, isChain g a b es ∧ es.length ≤ k) → find_path g a b k = none) ∧
    (∀ p, find_path g a b k = some p →
      isChain g a b p.edges ∧
      p.total_strength = (p.edges.map GraphEdge.strength).prod ∧
      p.nodes.length = p.edges.length + 1 ∧
      p.edges.length ≤ k) := by
  have main : ∀ p, find_path g a b k = some p →
      isChain g a b p.edges ∧
      p.total_strength = (p.edges.map GraphEdge.strength).prod ∧
      p.nodes.length = p.edges.length + 1 ∧
      p.edges.length ≤ k := by
    intro p hp
    rw [find_path] at hp
    by_cases h0 : get_node g a = none ∨ get_node g b = none
    · rw [if_pos h0] at hp; cases hp
    · rw [if_neg h0] at hp
      have hinv : ∀ cur path pedges pstr,
          (cur, path, pedges, pstr) ∈
            ([(a, [a], ([] : List GraphEdge), (1 : ℚ))]) →
          isChain g a cur pedges ∧ path = a :: pedges.map GraphEdge.to_node ∧
          pstr = (pedges.map GraphEdge.strength).prod ∧ path.length ≤ k + 1 := by
        intro cur path pedges pstr hm
        simp only [List.mem_singleton, Prod.mk.injEq] at hm
        obtain ⟨rfl, rfl, rfl, rfl⟩ := hm
        exact ⟨rfl, rfl, rfl, Nat.succ_le_succ (Nat.zero_le k)⟩
      obtain ⟨_, _, hchain, hnodes, hprod, hlen⟩ :=
        fpLoop_sound g a b k (find_path_fuel g + 1) _ [] p hinv hp
      refine ⟨hchain, hprod, ?_, ?_⟩
      · rw [hnodes]; simp
      · rw [hnodes] at hlen
        simpa using hlen
  refine ⟨?_, main⟩
  intro hne
  cases hp : find_path g a b k with
  | none => rfl
  | some p =>
    obtain ⟨hc, _, _, hl⟩ := main p hp
    exact absurd ⟨p.edges, hc, hl⟩ hne

theorem fpLoop_head_end (g : GraphEngine) (s e : String) (k fuel : Nat)
    (path : List String) (pedges : List GraphEdge) (pstr : ℚ)
    (queue : List (String × List String × List GraphEdge × ℚ)) (visited : List String) :
    fpLoop g s e k (fuel + 1) ((e, path, pedges, pstr) :: queue) visited =
      some ⟨s, e, path, pedges, pstr⟩ := by
  simp [fpLoop]

/-- C9: for a node id `a` present in the graph, `find_path(a, a, max_depth=k)`
returns the singleton path `[a]` with no edges and total strength `1.0`, for
every `k` (including `k = 0`) and regardless of `a`'s edges: the start state
is dequeued first and matches the target before any depth check. -/
theorem find_path_self (g : GraphEngine) (a : String) (k : Nat)
    (h : get_node g a ≠ none) :
    find_path g a a k = some ⟨a, a, [a], [], 1⟩ := by
  rw [find_path, if_neg (by simp [h]), fpLoop_head_end]

/-- Witness for `find_path_self`: a single isolated node `"A"` and
`max_depth = 0`. -/
theorem find_path_self_witness :
    find_path ⟨[("A", ⟨"A", "customer"⟩)], [], []⟩ "A" "A" 0 =
      some ⟨"A", "A", ["A"], [], 1⟩ :=
  find_path_self ⟨[("A", ⟨"A", "customer"⟩)], [], []⟩ "A" 0 (by decide)

/-- The edge `A→B` of spec Scenario B (strength 1.0). -/
def edge_AB : GraphEdge := ⟨"A", "B", "customer_invoice", 1⟩

/-- The edge `B→C` of spec Scenario B (strength 0.6). -/
def edge_BC : GraphEdge := ⟨"B", "C", "customer_invoice", 6/10⟩

/-- The graph of spec Scenario B: edges `A→B` (1.0) and `B→C` (0.6). -/
def scenarioB_graph : GraphEngine :=
  ⟨[("A", ⟨"A", "customer"⟩), ("B", ⟨"B", "invoice"⟩), ("C", ⟨"C", "contact"⟩)],
   [("A", [edge_AB]), ("B", [edge_BC])],
   [("B", [edge_AB]), ("C", [edge_BC])]⟩

/-- Witness for `find_path_sound` on Scenario B: with `max_depth = 0` no
path from `"A"` to `"C"` exists and null is returned; with `max_depth = 2`
the returned path is `A→B→C` with strength `1.0 × 0.6 = 0.6` and one more
node than edges. -/
theorem find_path_sound_witness :
    find_path scenarioB_graph "A" "C" 0 = none ∧
    find_path scenarioB_graph "A" "C" 2 =
      some ⟨"A", "C", ["A", "B", "C"], [edge_AB, edge_BC], 3/5⟩ ∧
    isChain scenarioB_graph "A" "C" [edge_AB, edge_BC] ∧
    (3/5 : ℚ) = ([edge_AB, edge_BC].map GraphEdge.strength).prod ∧
    (["A", "B", "C"] : List String).length = [edge_AB, edge_BC].length + 1 ∧
    [edge_AB, edge_BC].length ≤ 2 := by
  have h1 := (find_path_sound scenarioB_graph "A" "C" 0).1 (by
    rintro ⟨es, hc, hl⟩
    cases es with
    | nil =>
      have hac : ("A" : String) = "C" := hc
      exact absurd hac (by decide)
    | cons e es' => simp at hl)
  have hp : find_path scenarioB_graph "A" "C" 2 =
      some ⟨"A", "C", ["A", "B", "C"], [edge_AB, edge_BC], 3/5⟩ := by
    simp [find_path, find_path_fuel, scenarioB_graph, edge_AB, edge_BC, get_node,
      get_outgoing_edges, dgetD, dget, fpLoop]
    norm_num
  have h2 := (find_path_sound scenarioB_graph "A" "C" 2).2
    ⟨"A", "C", ["A", "B", "C"], [edge_AB, edge_BC], 3/5⟩ hp
  exact ⟨h1, hp, h2.1, h2.2.1, h2.2.2.1, h2.2.2.2⟩

/-- `DataSampleResult` of `data_sampler.py`.  Sampled values are modelled as
integers (any type with decidable equality would do: the sampler only forms
sets of them). -/
structure DataSampleResult where
  table_id : String
  column_name : String
  sample_values : List Int
  distinct_count : Nat
  null_count : Nat
  total_count : Nat
  cardinality_ratio : ℚ
deriving DecidableEq, Repr

/-- `DataSampler.detect_value_overlap`: 0 when either sample list is empty,
else |set1 ∩ set2| / |set1 ∪ set2| (with the code's guard against an empty
union). -/
def detect_value_overlap (sample1 sample2 : DataSampleResult) : ℚ :=
  if sample1.sample_values = [] ∨ sample2.sample_values = [] then 0
  else
    let set1 := sample1.sample_values.toFinset
    let set2 := sample2.sample_values.toFinset
    if 0 < (set1 ∪ set2).card then ((set1 ∩ set2).card : ℚ) / ((set1 ∪ set2).card) else 0

/-- `DataSampler.analyze_cardinality`. -/
def analyze_cardinality (from_sample to_sample : DataSampleResult) : String :=
  let from_is_unique := from_sample.cardinality_ratio > 95/100
  let to_is_unique := to_sample.cardinality_ratio > 95/100
  if from_is_unique ∧ to_is_unique then "1:1"
  else if from_is_unique ∧ ¬ to_is_unique then "N:1"
  else if ¬ from_is_unique ∧ to_is_unique then "1:N"
  else "N:M"

/-- The fields of the dictionary `DataSampler.validate_relationship` returns
that the claims are about (the per-side stats are copies of the sample
records and are not separately modelled). -/
structure ValidationResult where
  valid : Bool
  error : Option String
  overlap_ratio : Option ℚ
  cardinality : Option String
deriving DecidableEq, Repr

/-- `DataSampler.validate_relationship`.  The `sample_column` database query
is modelled by an oracle from `(dataset_id, table, column)` to an optional
sample (`None` both when the query fails and when it returns no rows, as in
the source). -/
def validate_relationship
    (sample_column : String → String → String → Option DataSampleResult)
    (dataset_id from_table from_column to_table to_column : String) : ValidationResult :=
  match sample_column dataset_id from_table from_column,
        sample_column dataset_id to_table to_column with
  | some from_sample, some to_sample =>
    { valid := decide (detect_value_overlap from_sample to_sample > 1/10)
      error := none
      overlap_ratio := some (detect_value_overlap from_sample to_sample)
      cardinality := some (analyze_cardinality from_sample to_sample) }
  | _, _ =>
    { valid := false
      error := some "Could not sample columns"
      overlap_ratio := none
      cardinality := none }

/-- The Jaccard overlap as the spec words it: `|A∩B| / |A∪B|` on the two
sampled value sets, `0` if either sample is empty. -/
def jaccard (A B : Finset Int) : ℚ :=
  if A = ∅ ∨ B = ∅ then 0 else ((A ∩ B).card : ℚ) / ((A ∪ B).card)

theorem detect_value_overlap_eq_jaccard (s1 s2 : DataSampleResult) :
    detect_value_overlap s1 s2 =
      jaccard s1.sample_values.toFinset s2.sample_values.toFinset := by
  by_cases h1 : s1.sample_values = []
  · simp [detect_value_overlap, jaccard, h1]
  by_cases h2 : s2.sample_values = []
  · simp [detect_value_overlap, jaccard, h2]
  obtain ⟨x, hx⟩ := (List.toFinset_nonempty_iff _).mpr h1
  have hu : 0 < (s1.sample_values.toFinset ∪ s2.sample_values.toFinset).card :=
    Finset.card_pos.mpr ⟨x, Finset.mem_union_left _ hx⟩
  have hne1 : s1.sample_values.toFinset ≠ ∅ :=
    fun hh => h1 ((List.toFinset_eq_empty_iff _).mp hh)
  have hne2 : s2.sample_values.toFinset ≠ ∅ :=
    fun hh => h2 ((List.toFinset_eq_empty_iff _).mp hh)
  simp [detect_value_overlap, jaccard, h1, h2, hne1, hne2, hu]

/-- A sample record carrying a given cardinality ratio (the other fields are
irrelevant to `analyze_cardinality`). -/
def sample_with (r : ℚ) : DataSampleResult := ⟨"t", "c", [], 0, 0, 0, r⟩

/-- C6: `analyze_cardinality` classifies a side as unique exactly when its
cardinality ratio exceeds 0.95, and returns `1:1` / `N:1` / `1:N` / `N:M`
according to which sides are unique; in particular ratios (0.99, 0.99),
(0.99, 0.40), (0.40, 0.99) and (0.40, 0.40) give the four answers. -/
theorem analyze_cardinality_spec :
    (∀ a b : DataSampleResult,
      (analyze_cardinality a b = "1:1" ↔
        (a.cardinality_ratio > 95/100 ∧ b.cardinality_ratio > 95/100)) ∧
      (analyze_cardinality a b = "N:1" ↔
        (a.cardinality_ratio > 95/100 ∧ ¬ b.cardinality_ratio > 95/100)) ∧
      (analyze_cardinality a b = "1:N" ↔
        (¬ a.cardinality_ratio > 95/100 ∧ b.cardinality_ratio > 95/100)) ∧
      (analyze_cardinality a b = "N:M" ↔
        (¬ a.cardinality_ratio > 95/100 ∧ ¬ b.cardinality_ratio > 95/100))) ∧
    analyze_cardinality (sample_with (99/100)) (sample_with (99/100)) = "1:1" ∧
    analyze_cardinality (sample_with (99/100)) (sample_with (40/100)) = "N:1" ∧
    analyze_cardinality (sample_with (40/100)) (sample_with (99/100)) = "1:N" ∧
    analyze_cardinality (sample_with (40/100)) (sample_with (40/100)) = "N:M" := by
  have main : ∀ a b : DataSampleResult,
      (analyze_cardinality a b = "1:1" ↔
        (a.cardinality_ratio > 95/100 ∧ b.cardinality_ratio > 95/100)) ∧
      (analyze_cardinality a b = "N:1" ↔
        (a.cardinality_ratio > 95/100 ∧ ¬ b.cardinality_ratio > 95/100)) ∧
      (analyze_cardinality a b = "1:N" ↔
        (¬ a.cardinality_ratio > 95/100 ∧ b.cardinality_ratio > 95/100)) ∧
      (analyze_cardinality a b = "N:M" ↔
        (¬ a.cardinality_ratio > 95/100 ∧ ¬ b.cardinality_ratio > 95/100)) := by
    intro a b
    by_cases ha : a.cardinality_ratio > 95/100 <;>
      by_cases hb : b.cardinality_ratio > 95/100 <;>
      simp [analyze_cardinality, ha, hb]
  refine ⟨main, ?_, ?_, ?_, ?_⟩
  · exact ((main _ _).1).mpr (by constructor <;> · show (95 : ℚ)/100 < 99/100; norm_num)
  · exact ((main _ _).2.1).mpr
      ⟨by show (95 : ℚ)/100 < 99/100; norm_num,
       by show ¬ ((95 : ℚ)/100 < 40/100); norm_num⟩
  · exact ((main _ _).2.2.1).mpr
      ⟨by show ¬ ((95 : ℚ)/100 < 40/100); norm_num,
       by show (95 : ℚ)/100 < 99/100; norm_num⟩
  · exact ((main _ _).2.2.2).mpr
      ⟨by show ¬ ((95 : ℚ)/100 < 40/100); norm_num,
       by show ¬ ((95 : ℚ)/100 < 40/100); norm_num⟩

/-- C7: `validate_relationship` never raises: when both columns sample, the
result is valid exactly when the Jaccard overlap of the two sampled value
sets exceeds 0.10 (and the overlap field holds that Jaccard value); when
either sampling returns nothing, the result is invalid with the error reason
`"Could not sample columns"` instead of an exception. -/
theorem validate_relationship_spec
    (sample_column : String → String → String → Option DataSampleResult)
    (dataset_id from_table from_column to_table to_column : String) :
    (∀ fs ts, sample_column dataset_id from_table from_column = some fs →
      sample_column dataset_id to_table to_column = some ts →
      ((validate_relationship sample_column dataset_id from_table from_column
          to_table to_column).valid = true ↔
        1/10 < jaccard fs.sample_values.toFinset ts.sample_values.toFinset) ∧
      (validate_relationship sample_column dataset_id from_table from_column
          to_table to_column).error = none ∧
      (validate_relationship sample_column dataset_id from_table from_column
          to_table to_column).overlap_ratio =
        some (jaccard fs.sample_values.toFinset ts.sample_values.toFinset)) ∧
    ((sample_column dataset_id from_table from_column = none ∨
        sample_column dataset_id to_table to_column = none) →
      (validate_relationship sample_column dataset_id from_table from_column
          to_table to_column).valid = false ∧
      (validate_relationship sample_column dataset_id from_table from_column
          to_table to_column).error = some "Could not sample columns") := by
  constructor
  · intro fs ts hf ht
    rw [validate_relationship, hf, ht]
    refine ⟨?_, rfl, ?_⟩
    · show decide (detect_value_overlap fs ts > 1/10) = true ↔ _
      rw [detect_value_overlap_eq_jaccard]
      exact decide_eq_true_iff
    · show some (detect_value_overlap fs ts) = _
      rw [detect_value_overlap_eq_jaccard]
  · intro h
    rcases hf : sample_column dataset_id from_table from_column with _ | fs <;>
      rcases ht : sample_column dataset_id to_table to_column with _ | ts <;>
      rw [validate_relationship, hf, ht]
    · exact ⟨rfl, rfl⟩
    · exact ⟨rfl, rfl⟩
    · exact ⟨rfl, rfl⟩
    · rcases h with h | h
      · rw [hf] at h; cases h
      · rw [ht] at h; cases h

/-- A sampling oracle realizing spec Scenario D: column `ta.x` samples
`{1,2,3}`, column `tb.y` samples `{2,3,4}`. -/
def scenarioD_sample : String → String → String → Option DataSampleResult :=
  fun _ table _ =>
    if table = "ta" then some ⟨"d.ta", "x", [1, 2, 3], 3, 0, 3, 1⟩
    else some ⟨"d.tb", "y", [2, 3, 4], 3, 0, 3, 1⟩

/-- Witness for `validate_relationship_spec` on Scenario D: sample sets
`{1,2,3}` and `{2,3,4}` give overlap `2/4 = 0.5 > 0.10`, so the
relationship is judged valid with no error. -/
theorem validate_relationship_spec_witness :
    (validate_relationship scenarioD_sample "d" "ta" "x" "tb" "y").valid = true ∧
    (validate_relationship scenarioD_sample "d" "ta" "x" "tb" "y").overlap_ratio =
      some (1/2) ∧
    (validate_relationship scenarioD_sample "d" "ta" "x" "tb" "y").error = none := by
  have hi : ((([1, 2, 3] : List Int).toFinset ∩ ([2, 3, 4] : List Int).toFinset)).card = 2 := by
    decide
  have hu : ((([1, 2, 3] : List Int).toFinset ∪ ([2, 3, 4] : List Int).toFinset)).card = 4 := by
    decide
  have hj : jaccard (([1, 2, 3] : List Int).toFinset) (([2, 3, 4] : List Int).toFinset)
      = 1/2 := by
    rw [jaccard, if_neg (by decide), hi, hu]
    norm_num
  obtain ⟨h1, h2, h3⟩ :=
    (validate_relationship_spec scenarioD_sample "d" "ta" "x" "tb" "y").1
      ⟨"d.ta", "x", [1, 2, 3], 3, 0, 3, 1⟩ ⟨"d.tb", "y", [2, 3, 4], 3, 0, 3, 1⟩ rfl rfl
  refine ⟨h1.mpr ?_, ?_, h2⟩
  · show (1 : ℚ)/10 <
      jaccard (([1, 2, 3] : List Int).toFinset) (([2, 3, 4] : List Int).toFinset)
    rw [hj]
    norm_num
  · rw [h3]
    show some (jaccard (([1, 2, 3] : List Int).toFinset) (([2, 3, 4] : List Int).toFinset)) = _
    rw [hj]

/-- `Table` of `metadata/models.py` (the fields the detector reads). -/
structure Table where
  id : String
  name : String
deriving DecidableEq, Repr

/-- `Column` of `metadata/models.py` (the fields the detector reads). -/
structure Column where
  name : String
  datatype : String
  is_primary_key : Bool
  is_foreign_key : Bool
  foreign_key_ref : Option String
deriving DecidableEq, Repr

/-- `DetectedRelationship` of `relationship_detector.py` (without the
`metadata` payload map). -/
structure DetectedRelationship where
  from_table_id : String
  from_column : String
  to_table_id : String
  to_column : String
  confidence : ℚ
  detection_method : String
deriving DecidableEq, Repr

/-- Python `str.split(".")` at character level: splits into the (possibly
empty) pieces between the dots; never returns an empty list. -/
def splitDots : List Char → List (List Char)
  | [] => [[]]
  | ch :: cs =>
    if ch = '.' then [] :: splitDots cs
    else
      match splitDots cs with
      | [] => [[ch]]
      | p :: ps => (ch :: p) :: ps

/-- Python `".".join(...)` at character level. -/
def joinDots : List (List Char) → List Char
  | [] => []
  | [l] => l
  | l :: ls => l ++ '.' :: joinDots ls

/-- `RelationshipDetector._create_fk_relationship`: parse the reference by
`split(".")`, join all but the last piece back with `"."` for the table id,
keep the last piece as the column. -/
def create_fk_relationship (from_table_id : String) (from_column : Column)
    (fk_ref : String) : DetectedRelationship :=
  { from_table_id := from_table_id
    from_column := from_column.name
    to_table_id := ⟨joinDots (splitDots fk_ref.data).dropLast⟩
    to_column := ⟨(splitDots fk_ref.data).getLastD []⟩
    confidence := 1
    detection_method := "explicit_fk" }

/-- `re.match(r"^id$", s)`: no capture group, so the caller skips it. -/
def match_plain_id (s : String) : Option (List String) :=
  if s = "id" then some [] else none

/-- `re.match(r"^(.+)_id$", s)`: a nonempty group followed by `_id` (the
regex subtleties of `.` not matching a newline and `$` also matching before
a trailing newline are not modelled; column names contain neither). -/
def match_underscore_id (s : String) : Option (List String) :=
  if s.endsWith "_id" ∧ 3 < s.length then some [s.dropRight 3] else none

/-- `re.match(r"^(.+)id$", s)` (same caveat as `match_underscore_id`). -/
def match_suffix_id (s : String) : Option (List String) :=
  if s.endsWith "id" ∧ 2 < s.length then some [s.dropRight 2] else none

/-- `re.match(r"^fk_(.+)$", s)` (same caveat as `match_underscore_id`). -/
def match_fk_pattern (s : String) : Option (List String) :=
  if s.startsWith "fk_" ∧ 3 < s.length then some [s.drop 3] else none

/-- `self.id_patterns`, each regex as its matcher. -/
def id_patterns : List (String → Option (List String)) :=
  [match_plain_id, match_underscore_id, match_suffix_id, match_fk_pattern]

/-- `table_by_name = {t.name: t for t in tables}` with dict lookup: the last
table with the queried name wins. -/
def table_by_name (tables : List Table) (name : String) : Option Table :=
  tables.foldl (fun acc t => if t.name = name then some t else acc) none

/-- `RelationshipDetector._are_types_compatible`. -/
def are_types_compatible (type1 type2 : String) : Bool :=
  let t1 := type1.toUpper
  let t2 := type2.toUpper
  let int_types := ["INTEGER", "INT64", "BIGINT", "INT", "SMALLINT", "TINYINT"]
  let string_types := ["STRING", "VARCHAR", "TEXT", "CHAR", "BPCHAR"]
  (int_types.contains t1 && int_types.contains t2) ||
    (string_types.contains t1 && string_types.contains t2) || (t1 == t2)

/-- `RelationshipDetector._calculate_confidence`: base 0.5, +0.3 when the
target is a primary key, +0.1 for an exact type match, +0.1 when the table
name is the exact plural of the entity, capped at 1.0. -/
def calculate_confidence (from_column to_column : Column)
    (entity_name table_name : String) : ℚ :=
  let c1 : ℚ := 1/2
  let c2 : ℚ := if to_column.is_primary_key then c1 + 3/10 else c1
  let c3 : ℚ := if from_column.datatype.toUpper = to_column.datatype.toUpper
    then c2 + 1/10 else c2
  let c4 : ℚ := if table_name = entity_name ++ "s" then c3 + 1/10 else c3
  min c4 1

/-- `RelationshipDetector._detect_by_naming_convention`.  The `for` loops
appending into `relationships` are modelled with `List.flatMap`/`filter`/`map`;
`columns_by_table.get(id, [])` is the function `columns_by_table`. -/
def detect_by_naming_convention (from_table : Table) (from_column : Column)
    (tables : List Table) (columns_by_table : String → List Column) :
    List DetectedRelationship :=
  let column_name := from_column.name.toLower
  id_patterns.flatMap (fun pm =>
    match pm column_name with
    | none => []
    | some [] => []
    | some (entity_name :: _) =>
      [entity_name ++ "s", entity_name, entity_name ++ "es"].flatMap (fun candidate_name =>
        match table_by_name tables candidate_name with
        | none => []
        | some target_table =>
          ((columns_by_table target_table.id).filter (fun tcol =>
            (tcol.is_primary_key || tcol.name.toLower == "id" ||
              tcol.name.toLower == entity_name ++ "_id") &&
            are_types_compatible from_column.datatype tcol.datatype)).map
          (fun tcol =>
            { from_table_id := from_table.id
              from_column := from_column.name
              to_table_id := target_table.id
              to_column := tcol.name
              confidence := calculate_confidence from_column tcol entity_name candidate_name
              detection_method := "naming_convention" })))

/-- The dedup key: the 4-tuple of endpoints. -/
def rel_key (r : DetectedRelationship) : String × String × String × String :=
  (r.from_table_id, r.from_column, r.to_table_id, r.to_column)

/-- Association-list lookup with an arbitrary decidable key type
(the `seen` dict of `_deduplicate_relationships`). -/
def alookup {κ α : Type} [DecidableEq κ] : List (κ × α) → κ → Option α
  | [], _ => none
  | p :: m, k => if p.1 = k then some p.2 else alookup m k

/-- Association-list write (`seen[key] = rel`): replace in place or append. -/
def aset {κ α : Type} [DecidableEq κ] : List (κ × α) → κ → α → List (κ × α)
  | [], k, v => [(k, v)]
  | p :: m, k, v => if p.1 = k then (k, v) :: m else p :: aset m k v

/-- `RelationshipDetector._deduplicate_relationships`: keep, per endpoint
4-tuple, the first relationship of maximal confidence (a later one replaces
the stored one only when strictly more confident); return the stored values
in dict (insertion) order. -/
def deduplicate_relationships (relationships : List DetectedRelationship) :
    List DetectedRelationship :=
  (relationships.foldl (fun seen rel =>
    match alookup seen (rel_key rel) with
    | none => aset seen (rel_key rel) rel
    | some prev =>
      if rel.confidence > prev.confidence then aset seen (rel_key rel) rel else seen)
    []).map Prod.snd

/-- One step of the stable descending-by-confidence sort. -/
def insert_by_conf (r : DetectedRelationship) :
    List DetectedRelationship → List DetectedRelationship
  | [] => [r]
  | x :: xs => if x.confidence < r.confidence then r :: x :: xs else x :: insert_by_conf r xs

/-- `relationships.sort(key=lambda r: r.confidence, reverse=True)`: a stable
sort by descending confidence (Python's Timsort modelled by stable insertion
sort; every claim about the result is order-insensitive). -/
def sort_by_confidence (l : List DetectedRelationship) : List DetectedRelationship :=
  l.foldr insert_by_conf []

/-- The candidate list `relationships` that `detect_relationships` builds
before deduplication: per table and column, the explicit foreign key when
the column carries a truthy reference, else the naming-convention
candidates. -/
def detect_candidates (tables : List Table) (columns_by_table : String → List Column) :
    List DetectedRelationship :=
  tables.flatMap (fun table =>
    (columns_by_table table.id).flatMap (fun column =>
      match column.foreign_key_ref with
      | some ref =>
        if column.is_foreign_key ∧ ref ≠ "" then
          [create_fk_relationship table.id column ref]
        else detect_by_naming_convention table column tables columns_by_table
      | none => detect_by_naming_convention table column tables columns_by_table))

/-- `RelationshipDetector.detect_relationships`. -/
def detect_relationships (tables : List Table) (columns_by_table : String → List Column) :
    List DetectedRelationship :=
  sort_by_confidence (deduplicate_relationships (detect_candidates tables columns_by_table))

theorem mem_insert_by_conf (r x : DetectedRelationship) (l : List DetectedRelationship) :
    x ∈ insert_by_conf r l ↔ x = r ∨ x ∈ l := by
  induction l with
  | nil => simp [insert_by_conf]
  | cons y ys ih =>
    by_cases h : y.confidence < r.confidence
    · simp [insert_by_conf, h]
    · simp only [insert_by_conf, if_neg h, List.mem_cons, ih]
      tauto

theorem mem_sort_by_confidence (x : DetectedRelationship) (l : List DetectedRelationship) :
    x ∈ sort_by_confidence l ↔ x ∈ l := by
  induction l with
  | nil => simp [sort_by_confidence]
  | cons y ys ih =>
    simp only [sort_by_confidence, List.foldr_cons] at ih ⊢
    rw [mem_insert_by_conf, ih, List.mem_cons]

theorem calculate_confidence_bounds (a b : Column) (e t : String) :
    1/2 ≤ calculate_confidence a b e t ∧ calculate_confidence a b e t ≤ 1 := by
  simp only [calculate_confidence]
  constructor
  · refine le_min ?_ (by norm_num)
    split_ifs <;> norm_num
  · exact min_le_right _ _

theorem eq_of_map_nodup {α β : Type} (f : α → β) (l : List α) (h : (l.map f).Nodup)
    {x y : α} (hx : x ∈ l) (hy : y ∈ l) (hxy : f x = f y) : x = y := by
  induction l with
  | nil => cases hx
  | cons a l ih =>
    rw [List.map_cons, List.nodup_cons] at h
    rcases List.mem_cons.mp hx with rfl | hx' <;> rcases List.mem_cons.mp hy with rfl | hy'
    · rfl
    · exact absurd (hxy ▸ List.mem_map_of_mem f hy') h.1
    · exact absurd (hxy ▸ List.mem_map_of_mem f hx') h.1
    · exact ih h.2 hx' hy'

theorem alookup_aset_self {κ α : Type} [DecidableEq κ] (m : List (κ × α)) (k : κ) (v : α) :
    alookup (aset m k v) k = some v := by
  induction m with
  | nil => simp [aset, alookup]
  | cons p m ih =>
    by_cases h : p.1 = k
    · simp [aset, h, alookup]
    · simp [aset, h, alookup, ih]

theorem mem_aset {κ α : Type} [DecidableEq κ] (m : List (κ × α)) (k : κ) (v : α)
    (p : κ × α) (h : p ∈ aset m k v) : p = (k, v) ∨ p ∈ m := by
  induction m with
  | nil => simp [aset] at h; exact Or.inl h
  | cons q m ih =>
    by_cases hq : q.1 = k
    · rw [aset, if_pos hq] at h
      rcases List.mem_cons.mp h with h' | h'
      · exact Or.inl h'
      · exact Or.inr (List.mem_cons_of_mem _ h')
    · rw [aset, if_neg hq] at h
      rcases List.mem_cons.mp h with h' | h'
      · exact Or.inr (h' ▸ List.mem_cons_self _ _)
      · rcases ih h' with h'' | h''
        · exact Or.inl h''
        · exact Or.inr (List.mem_cons_of_mem _ h'')

theorem mem_aset_of_mem_ne {κ α : Type} [DecidableEq κ] (m : List (κ × α)) (k : κ) (v : α)
    (p : κ × α) (hp : p ∈ m) (hne : p.1 ≠ k) : p ∈ aset m k v := by
  induction m with
  | nil => cases hp
  | cons q m ih =>
    by_cases hq : q.1 = k
    · rw [aset, if_pos hq]
      rcases List.mem_cons.mp hp with rfl | hp'
      · exact absurd hq hne
      · exact List.mem_cons_of_mem _ hp'
    · rw [aset, if_neg hq]
      rcases List.mem_cons.mp hp with rfl | hp'
      · exact List.mem_cons_self _ _
      · exact List.mem_cons_of_mem _ (ih hp')

theorem mem_aset_self {κ α : Type} [DecidableEq κ] (m : List (κ × α)) (k : κ) (v : α) :
    (k, v) ∈ aset m k v := by
  induction m with
  | nil => simp [aset]
  | cons q m ih =>
    by_cases hq : q.1 = k
    · rw [aset, if_pos hq]; exact List.mem_cons_self _ _
    · rw [aset, if_neg hq]; exact List.mem_cons_of_mem _ ih

theorem aset_map_fst {κ α : Type} [DecidableEq κ] (m : List (κ × α)) (k : κ) (v : α) :
    (aset m k v).map Prod.fst = m.map Prod.fst ∨
    (aset m k v).map Prod.fst = m.map Prod.fst ++ [k] := by
  induction m with
  | nil => exact Or.inr (by simp [aset])
  | cons q m ih =>
    by_cases hq : q.1 = k
    · rw [aset, if_pos hq]
      exact Or.inl (by simp [hq])
    · rw [aset, if_neg hq]
      rcases ih with h | h
      · exact Or.inl (by simp [h])
      · exact Or.inr (by simp [h])

theorem aset_map_fst_nodup {κ α : Type} [DecidableEq κ] (m : List (κ × α)) (k : κ) (v : α)
    (h : (m.map Prod.fst).Nodup) (hk : alookup m k = none) :
    ((aset m k v).map Prod.fst).Nodup := by
  induction m with
  | nil => simp [aset]
  | cons q m ih =>
    rw [alookup] at hk
    by_cases hq : q.1 = k
    · rw [if_pos hq] at hk; cases hk
    · rw [if_neg hq] at hk
      rw [List.map_cons, List.nodup_cons] at h
      rw [aset, if_neg hq, List.map_cons, List.nodup_cons]
      refine ⟨?_, ih h.2 hk⟩
      intro hmem
      rcases aset_map_fst m k v with he | he
      · rw [he] at hmem; exact h.1 hmem
      · rw [he] at hmem
        rcases List.mem_append.mp hmem with h' | h'
        · exact h.1 h'
        · exact hq (List.mem_singleton.mp h')

theorem alookup_none_not_mem {κ α : Type} [DecidableEq κ] (m : List (κ × α)) (k : κ)
    (h : alookup m k = none) (p : κ × α) (hp : p ∈ m) : p.1 ≠ k := by
  induction m with
  | nil => cases hp
  | cons q m ih =>
    rw [alookup] at h
    by_cases hq : q.1 = k
    · rw [if_pos hq] at h; cases h
    · rw [if_neg hq] at h
      rcases List.mem_cons.mp hp with rfl | hp'
      · exact hq
      · exact ih h hp'


theorem alookup_some_mem {κ α : Type} [DecidableEq κ] (m : List (κ × α)) (k : κ) (v : α)
    (h : alookup m k = some v) : (k, v) ∈ m := by
  induction m with
  | nil => cases h
  | cons q m ih =>
    rw [alookup] at h
    by_cases hq : q.1 = k
    · rw [if_pos hq] at h
      obtain rfl := Option.some.inj h
      have hkq : (k, q.2) = q := by rw [← hq]
      rw [hkq]
      exact List.mem_cons_self _ _
    · rw [if_neg hq] at h
      exact List.mem_cons_of_mem _ (ih h)

theorem alookup_some_aset_map_fst {κ α : Type} [DecidableEq κ] (m : List (κ × α)) (k : κ)
    (v w : α) (h : alookup m k = some v) : (aset m k w).map Prod.fst = m.map Prod.fst := by
  induction m with
  | nil => cases h
  | cons q m ih =>
    rw [alookup] at h
    by_cases hq : q.1 = k
    · rw [aset, if_pos hq, List.map_cons, List.map_cons, hq]
    · rw [if_neg hq] at h
      rw [aset, if_neg hq, List.map_cons, List.map_cons, ih h]

theorem mem_aset_nodup {κ α : Type} [DecidableEq κ] (m : List (κ × α)) (k : κ) (v : α)
    (hnd : (m.map Prod.fst).Nodup) (p : κ × α) (h : p ∈ aset m k v) :
    p = (k, v) ∨ (p ∈ m ∧ p.1 ≠ k) := by
  induction m with
  | nil => simp [aset] at h; exact Or.inl h
  | cons q m ih =>
    rw [List.map_cons, List.nodup_cons] at hnd
    by_cases hq : q.1 = k
    · rw [aset, if_pos hq] at h
      rcases List.mem_cons.mp h with h' | h'
      · exact Or.inl h'
      · refine Or.inr ⟨List.mem_cons_of_mem _ h', ?_⟩
        intro hpk
        exact hnd.1 (hq ▸ hpk ▸ List.mem_map_of_mem Prod.fst h')
    · rw [aset, if_neg hq] at h
      rcases List.mem_cons.mp h with rfl | h'
      · exact Or.inr ⟨List.mem_cons_self _ _, hq⟩
      · rcases ih hnd.2 h' with h'' | h''
        · exact Or.inl h''
        · exact Or.inr ⟨List.mem_cons_of_mem _ h''.1, h''.2⟩

/-- One iteration of the `_deduplicate_relationships` loop. -/
def dedup_step (seen : List ((String × String × String × String) × DetectedRelationship))
    (rel : DetectedRelationship) :
    List ((String × String × String × String) × DetectedRelationship) :=
  match alookup seen (rel_key rel) with
  | none => aset seen (rel_key rel) rel
  | some prev =>
    if rel.confidence > prev.confidence then aset seen (rel_key rel) rel else seen

theorem deduplicate_eq_foldl (l : List DetectedRelationship) :
    deduplicate_relationships l = (l.foldl dedup_step []).map Prod.snd := rfl

theorem dedup_step_none (seen : List ((String × String × String × String) ×
      DetectedRelationship)) (rel : DetectedRelationship)
    (h : alookup seen (rel_key rel) = none) :
    dedup_step seen rel = aset seen (rel_key rel) rel := by
  rw [dedup_step, h]

theorem dedup_step_some_gt (seen : List ((String × String × String × String) ×
      DetectedRelationship)) (rel prev : DetectedRelationship)
    (h : alookup seen (rel_key rel) = some prev)
    (hgt : rel.confidence > prev.confidence) :
    dedup_step seen rel = aset seen (rel_key rel) rel := by
  rw [dedup_step, h]
  show (if rel.confidence > prev.confidence then aset seen (rel_key rel) rel else seen) = _
  rw [if_pos hgt]

theorem dedup_step_some_le (seen : List ((String × String × String × String) ×
      DetectedRelationship)) (rel prev : DetectedRelationship)
    (h : alookup seen (rel_key rel) = some prev)
    (hgt : ¬ rel.confidence > prev.confidence) :
    dedup_step seen rel = seen := by
  rw [dedup_step, h]
  show (if rel.confidence > prev.confidence then aset seen (rel_key rel) rel else seen) = _
  rw [if_neg hgt]

theorem dedup_foldl_spec (rest : List DetectedRelationship) :
    ∀ (seen : List ((String × String × String × String) × DetectedRelationship))
      (done : List DetectedRelationship),
      ((seen.map Prod.fst).Nodup) →
      (∀ p ∈ seen, rel_key p.2 = p.1 ∧ p.2 ∈ done ∧
        ∀ r' ∈ done, rel_key r' = p.1 → r'.confidence ≤ p.2.confidence) →
      (∀ r' ∈ done, ∃ p ∈ seen, p.1 = rel_key r') →
      (((rest.foldl dedup_step seen).map Prod.fst).Nodup) ∧
      (∀ p ∈ rest.foldl dedup_step seen, rel_key p.2 = p.1 ∧ p.2 ∈ done ++ rest ∧
        ∀ r' ∈ done ++ rest, rel_key r' = p.1 → r'.confidence ≤ p.2.confidence) ∧
      (∀ r' ∈ done ++ rest, ∃ p ∈ rest.foldl dedup_step seen, p.1 = rel_key r') := by
  induction rest with
  | nil =>
    intro seen done h1 h2 h3
    simp only [List.foldl_nil, List.append_nil]
    exact ⟨h1, h2, h3⟩
  | cons rel rest ih =>
    intro seen done h1 h2 h3
    rw [List.foldl_cons]
    have step1 : ((dedup_step seen rel).map Prod.fst).Nodup := by
      rcases hl : alookup seen (rel_key rel) with _ | prev
      · rw [dedup_step_none seen rel hl]
        exact aset_map_fst_nodup seen _ rel h1 hl
      · by_cases hgt : rel.confidence > prev.confidence
        · rw [dedup_step_some_gt seen rel prev hl hgt,
            alookup_some_aset_map_fst seen _ prev rel hl]
          exact h1
        · rw [dedup_step_some_le seen rel prev hl hgt]
          exact h1
    have step2 : ∀ p ∈ dedup_step seen rel, rel_key p.2 = p.1 ∧ p.2 ∈ done ++ [rel] ∧
        ∀ r' ∈ done ++ [rel], rel_key r' = p.1 → r'.confidence ≤ p.2.confidence := by
      intro p hp
      rcases hl : alookup seen (rel_key rel) with _ | prev
      · rw [dedup_step_none seen rel hl] at hp
        rcases mem_aset_nodup seen _ rel h1 p hp with rfl | ⟨hpm, hpk⟩
        · refine ⟨rfl, List.mem_append_right _ (List.mem_singleton.mpr rfl), ?_⟩
          intro r' hr' hk
          rcases List.mem_append.mp hr' with hr' | hr'
          · obtain ⟨q, hq, hqk⟩ := h3 r' hr'
            exact absurd (hqk.trans hk) (alookup_none_not_mem seen _ hl q hq)
          · rw [List.mem_singleton.mp hr']
        · obtain ⟨hk, hd, hb⟩ := h2 p hpm
          refine ⟨hk, List.mem_append_left _ hd, ?_⟩
          intro r' hr' hk'
          rcases List.mem_append.mp hr' with hr' | hr'
          · exact hb r' hr' hk'
          · rw [List.mem_singleton.mp hr'] at hk' ⊢
            exact absurd hk'.symm hpk
      · have hprev : (rel_key rel, prev) ∈ seen := alookup_some_mem seen _ prev hl
        obtain ⟨hpk0, hpd0, hpb0⟩ := h2 _ hprev
        by_cases hgt : rel.confidence > prev.confidence
        · rw [dedup_step_some_gt seen rel prev hl hgt] at hp
          rcases mem_aset_nodup seen _ rel h1 p hp with rfl | ⟨hpm, hpk⟩
          · refine ⟨rfl, List.mem_append_right _ (List.mem_singleton.mpr rfl), ?_⟩
            intro r' hr' hk
            rcases List.mem_append.mp hr' with hr' | hr'
            · exact le_of_lt (lt_of_le_of_lt (hpb0 r' hr' hk) hgt)
            · rw [List.mem_singleton.mp hr']
          · obtain ⟨hk, hd, hb⟩ := h2 p hpm
            refine ⟨hk, List.mem_append_left _ hd, ?_⟩
            intro r' hr' hk'
            rcases List.mem_append.mp hr' with hr' | hr'
            · exact hb r' hr' hk'
            · rw [List.mem_singleton.mp hr'] at hk' ⊢
              exact absurd hk'.symm hpk
        · rw [dedup_step_some_le seen rel prev hl hgt] at hp
          obtain ⟨hk, hd, hb⟩ := h2 p hp
          refine ⟨hk, List.mem_append_left _ hd, ?_⟩
          intro r' hr' hk'
          rcases List.mem_append.mp hr' with hr' | hr'
          · exact hb r' hr' hk'
          · rw [List.mem_singleton.mp hr'] at hk' ⊢
            have hpprev : p = (rel_key rel, prev) :=
              eq_of_map_nodup Prod.fst seen h1 hp hprev (by rw [← hk'])
            rw [hpprev]
            exact le_of_not_lt hgt
    have step3 : ∀ r' ∈ done ++ [rel], ∃ p ∈ dedup_step seen rel, p.1 = rel_key r' := by
      intro r' hr'
      rcases hl : alookup seen (rel_key rel) with _ | prev
      · rw [dedup_step_none seen rel hl]
        rcases List.mem_append.mp hr' with hr' | hr'
        · obtain ⟨q, hq, hqk⟩ := h3 r' hr'
          exact ⟨q, mem_aset_of_mem_ne seen _ rel q hq
            (alookup_none_not_mem seen _ hl q hq), hqk⟩
        · rw [List.mem_singleton.mp hr']
          exact ⟨(rel_key rel, rel), mem_aset_self seen _ rel, rfl⟩
      · have hprev : (rel_key rel, prev) ∈ seen := alookup_some_mem seen _ prev hl
        by_cases hgt : rel.confidence > prev.confidence
        · rw [dedup_step_some_gt seen rel prev hl hgt]
          rcases List.mem_append.mp hr' with hr' | hr'
          · obtain ⟨q, hq, hqk⟩ := h3 r' hr'
            by_cases hqrel : q.1 = rel_key rel
            · exact ⟨(rel_key rel, rel), mem_aset_self seen _ rel, hqrel ▸ hqk⟩
            · exact ⟨q, mem_aset_of_mem_ne seen _ rel q hq hqrel, hqk⟩
          · rw [List.mem_singleton.mp hr']
            exact ⟨(rel_key rel, rel), mem_aset_self seen _ rel, rfl⟩
        · rw [dedup_step_some_le seen rel prev hl hgt]
          rcases List.mem_append.mp hr' with hr' | hr'
          · exact h3 r' hr'
          · rw [List.mem_singleton.mp hr']
            exact ⟨(rel_key rel, prev), hprev, rfl⟩
    have final := ih (dedup_step seen rel) (done ++ [rel]) step1 step2 step3
    rw [List.append_assoc, List.singleton_append] at final
    exact final

theorem mem_deduplicate (l : List DetectedRelationship) (r : DetectedRelationship)
    (h : r ∈ deduplicate_relationships l) :
    r ∈ l ∧ ∀ r' ∈ l, rel_key r' = rel_key r → r'.confidence ≤ r.confidence := by
  rw [deduplicate_eq_foldl] at h
  obtain ⟨p, hp, hps⟩ := List.mem_map.mp h
  obtain ⟨hk, hd, hb⟩ := (dedup_foldl_spec l [] [] (by simp) (by simp) (by simp)).2.1 p hp
  subst hps
  rw [List.nil_append] at hd hb
  refine ⟨hd, ?_⟩
  intro r' hr' hk'
  exact hb r' hr' (by rw [hk', hk])

theorem dedup_complete (l : List DetectedRelationship) (r : DetectedRelationship)
    (h : r ∈ l) :
    ∃ rr ∈ deduplicate_relationships l, rel_key rr = rel_key r := by
  rw [deduplicate_eq_foldl]
  have spec := dedup_foldl_spec l [] [] (by simp) (by simp) (by simp)
  obtain ⟨p, hp, hpk⟩ := spec.2.2 r (by rw [List.nil_append]; exact h)
  have hk := (spec.2.1 p hp).1
  exact ⟨p.2, List.mem_map_of_mem Prod.snd hp, by rw [hk, hpk]⟩

theorem dedup_unique (l : List DetectedRelationship) (r1 r2 : DetectedRelationship)
    (h1 : r1 ∈ deduplicate_relationships l) (h2 : r2 ∈ deduplicate_relationships l)
    (hk : rel_key r1 = rel_key r2) : r1 = r2 := by
  rw [deduplicate_eq_foldl] at h1 h2
  obtain ⟨p1, hp1, hps1⟩ := List.mem_map.mp h1
  obtain ⟨p2, hp2, hps2⟩ := List.mem_map.mp h2
  have spec := dedup_foldl_spec l [] [] (by simp) (by simp) (by simp)
  have hk1 := (spec.2.1 p1 hp1).1
  have hk2 := (spec.2.1 p2 hp2).1
  have hpp : p1 = p2 := by
    refine eq_of_map_nodup Prod.fst _ spec.1 hp1 hp2 ?_
    rw [← hk1, ← hk2, hps1, hps2, hk]
  rw [← hps1, ← hps2, hpp]

theorem mem_naming_shape (ft : Table) (c : Column) (tables : List Table)
    (columns_by_table : String → List Column) :
    ∀ r ∈ detect_by_naming_convention ft c tables columns_by_table,
      r.detection_method = "naming_convention" ∧ r.from_table_id = ft.id ∧
      r.from_column = c.name ∧ 1/2 ≤ r.confidence ∧ r.confidence ≤ 1 := by
  intro r hr
  simp only [detect_by_naming_convention] at hr
  obtain ⟨pm, _, hr⟩ := List.mem_flatMap.mp hr
  rcases hm : pm (c.name.toLower) with _ | gs
  · rw [hm] at hr; cases hr
  · rcases gs with _ | ⟨e, rest⟩
    · rw [hm] at hr; cases hr
    · rw [hm] at hr
      obtain ⟨cand, _, hr⟩ := List.mem_flatMap.mp hr
      rcases ht : table_by_name tables cand with _ | target
      · rw [ht] at hr; cases hr
      · rw [ht] at hr
        obtain ⟨tcol, _, heq⟩ := List.mem_map.mp hr
        rw [← heq]
        exact ⟨rfl, rfl, rfl, calculate_confidence_bounds c tcol e cand⟩

/-- Decomposition of the candidate list: every candidate comes from some
table and column, either as the column's explicit foreign key (when the
column carries a truthy reference) or as a naming-convention candidate (when
it does not). -/
theorem mem_detect_candidates (tables : List Table)
    (columns_by_table : String → List Column) :
    ∀ r ∈ detect_candidates tables columns_by_table,
      ∃ t ∈ tables, ∃ c ∈ columns_by_table t.id,
        ((∃ ref, c.foreign_key_ref = some ref ∧ c.is_foreign_key = true ∧ ref ≠ "" ∧
          r = create_fk_relationship t.id c ref) ∨
         (¬ (c.is_foreign_key = true ∧ ∃ ref, c.foreign_key_ref = some ref ∧ ref ≠ "") ∧
          r ∈ detect_by_naming_convention t c tables columns_by_table)) := by
  intro r hr
  simp only [detect_candidates] at hr
  obtain ⟨t, ht, hr⟩ := List.mem_flatMap.mp hr
  obtain ⟨c, hc, hr⟩ := List.mem_flatMap.mp hr
  refine ⟨t, ht, c, hc, ?_⟩
  rcases href : c.foreign_key_ref with _ | ref
  · rw [href] at hr
    have hr2 : r ∈ detect_by_naming_convention t c tables columns_by_table := hr
    refine Or.inr ⟨?_, hr2⟩
    rintro ⟨_, ref, href', _⟩
    cases href'
  · rw [href] at hr
    have hr2 : r ∈ (if c.is_foreign_key = true ∧ ref ≠ ""
        then [create_fk_relationship t.id c ref]
        else detect_by_naming_convention t c tables columns_by_table) := hr
    by_cases hcond : c.is_foreign_key = true ∧ ref ≠ ""
    · rw [if_pos hcond] at hr2
      exact Or.inl ⟨ref, rfl, hcond.1, hcond.2, List.mem_singleton.mp hr2⟩
    · rw [if_neg hcond] at hr2
      refine Or.inr ⟨?_, hr2⟩
      rintro ⟨hfk, ref', href', hne⟩
      obtain rfl := Option.some.inj href'
      exact hcond ⟨hfk, hne⟩

/-- C2: in the detector's output, every `explicit_fk` relationship has
confidence exactly 1 and every `naming_convention` relationship has
confidence in [0.5, 1]; and `_deduplicate_relationships` retains, per
endpoint 4-tuple, exactly one entry, which is drawn from the input and has
the maximum confidence among all input entries with that 4-tuple. -/
theorem detector_confidence_spec (tables : List Table)
    (columns_by_table : String → List Column) (rels : List DetectedRelationship) :
    (∀ r ∈ detect_relationships tables columns_by_table,
      (r.detection_method = "explicit_fk" → r.confidence = 1) ∧
      (r.detection_method = "naming_convention" →
        1/2 ≤ r.confidence ∧ r.confidence ≤ 1)) ∧
    (∀ r ∈ deduplicate_relationships rels,
      r ∈ rels ∧ ∀ r' ∈ rels, rel_key r' = rel_key r → r'.confidence ≤ r.confidence) ∧
    (∀ r ∈ rels, ∃ rr ∈ deduplicate_relationships rels, rel_key rr = rel_key r) ∧
    (∀ r1 ∈ deduplicate_relationships rels, ∀ r2 ∈ deduplicate_relationships rels,
      rel_key r1 = rel_key r2 → r1 = r2) := by
  refine ⟨?_, mem_deduplicate rels, dedup_complete rels, ?_⟩
  · intro r hr
    rw [detect_relationships, mem_sort_by_confidence] at hr
    have hr' := (mem_deduplicate _ r hr).1
    obtain ⟨t, _, c, _, hcase⟩ := mem_detect_candidates tables columns_by_table r hr'
    rcases hcase with ⟨ref, _, _, _, rfl⟩ | ⟨_, hnaming⟩
    · exact ⟨fun _ => rfl,
        fun h => absurd h (show ¬ ("explicit_fk" = "naming_convention") by decide)⟩
    · obtain ⟨hm, _, _, hb1, hb2⟩ :=
        mem_naming_shape t c tables columns_by_table r hnaming
      refine ⟨fun h => ?_, fun _ => ⟨hb1, hb2⟩⟩
      rw [hm] at h
      exact absurd h (by decide)
  · intro r1 h1 r2 h2 hk
    exact dedup_unique rels r1 r2 h1 h2 hk

/-- A one-table metadata catalog whose single column carries an explicit
foreign-key reference. -/
def c2_tables : List Table := [⟨"t1", "orders"⟩]

/-- Columns of `c2_tables`, keyed by table id. -/
def c2_columns : String → List Column :=
  fun tid =>
    if tid = "t1" then [⟨"customer_ref", "INT64", false, true, some "customers.id"⟩]
    else []

/-- Witness for `detector_confidence_spec` at the catalog `c2_tables`: the
emitted explicit-FK relationship has confidence 1. -/
theorem detector_confidence_spec_witness :
    letI r : DetectedRelationship := ⟨"t1", "customer_ref", "customers", "id", 1, "explicit_fk"⟩
    (r.detection_method = "explicit_fk" → r.confidence = 1) ∧
    (r.detection_method = "naming_convention" →
      1/2 ≤ r.confidence ∧ r.confidence ≤ 1) :=
  (detector_confidence_spec c2_tables c2_columns []).1
    ⟨"t1", "customer_ref", "customers", "id", 1, "explicit_fk"⟩ (by decide)

theorem splitDots_ne_nil (cs : List Char) : splitDots cs ≠ [] := by
  induction cs with
  | nil => simp [splitDots]
  | cons ch cs ih =>
    by_cases h : ch = '.'
    · simp [splitDots, h]
    · simp only [splitDots, if_neg h]
      rcases hs : splitDots cs with _ | ⟨p, ps⟩
      · simp
      · simp

theorem splitDots_no_dot (cs : List Char) (h : '.' ∉ cs) : splitDots cs = [cs] := by
  induction cs with
  | nil => rfl
  | cons ch cs ih =>
    have hch : ch ≠ '.' := fun hh => h (hh ▸ List.mem_cons_self _ _)
    have h' : '.' ∉ cs := fun hh => h (List.mem_cons_of_mem _ hh)
    simp only [splitDots, if_neg hch, ih h']

theorem splitDots_two_le (cs : List Char) (h : '.' ∈ cs) : 2 ≤ (splitDots cs).length := by
  induction cs with
  | nil => cases h
  | cons ch cs ih =>
    by_cases hch : ch = '.'
    · have h1 := List.length_pos.mpr (splitDots_ne_nil cs)
      simp only [splitDots, if_pos hch, List.length_cons]
      omega
    · have hd : '.' ∈ cs := by
        rcases List.mem_cons.mp h with h' | h'
        · exact absurd h'.symm hch
        · exact h'
      have h2 := ih hd
      rcases hs : splitDots cs with _ | ⟨p, ps⟩
      · exact absurd hs (splitDots_ne_nil cs)
      · rw [hs, List.length_cons] at h2
        simp only [splitDots, if_neg hch, hs, List.length_cons]
        omega

theorem joinDots_cons_head (ch : Char) (p : List Char) (M : List (List Char)) :
    joinDots ((ch :: p) :: M) = ch :: joinDots (p :: M) := by
  cases M with
  | nil => rfl
  | cons m ms => simp [joinDots, List.cons_append]

/-- The last-separator characterization of Python's
`".".join(ref.split(".")[:-1])` / `ref.split(".")[-1]`: for a reference
containing a dot, they are exactly the text before and after its last dot. -/
theorem splitDots_last_dot (cs : List Char) (h : '.' ∈ cs) :
    ∃ pre post : List Char, cs = pre ++ '.' :: post ∧ '.' ∉ post ∧
      joinDots (splitDots cs).dropLast = pre ∧ (splitDots cs).getLastD [] = post := by
  induction cs with
  | nil => cases h
  | cons ch cs ih =>
    by_cases hd : '.' ∈ cs
    · obtain ⟨pre, post, hcs, hnp, hj, hl⟩ := ih hd
      have h2 := splitDots_two_le cs hd
      rcases hsL : splitDots cs with _ | ⟨p, ps⟩
      · exact absurd hsL (splitDots_ne_nil cs)
      rcases ps with _ | ⟨q, ps'⟩
      · rw [hsL] at h2; simp at h2
      rw [hsL] at hj hl
      by_cases hch : ch = '.'
      · subst hch
        have hs : splitDots ('.' :: cs) = [] :: p :: q :: ps' := by
          simp [splitDots, hsL]
        refine ⟨'.' :: pre, post, by rw [hcs]; rfl, hnp, ?_, ?_⟩
        · rw [hs]
          show '.' :: joinDots (p :: (q :: ps').dropLast) = '.' :: pre
          rw [show joinDots (p :: (q :: ps').dropLast) = pre from hj]
        · rw [hs, List.getLastD_cons, List.getLastD_cons]
          rw [List.getLastD_cons] at hl
          exact hl
      · have hs : splitDots (ch :: cs) = (ch :: p) :: q :: ps' := by
          simp [splitDots, hch, hsL]
        refine ⟨ch :: pre, post, by rw [hcs]; rfl, hnp, ?_, ?_⟩
        · rw [hs]
          show joinDots ((ch :: p) :: (q :: ps').dropLast) = ch :: pre
          rw [joinDots_cons_head]
          rw [show joinDots (p :: (q :: ps').dropLast) = pre from hj]
        · rw [hs, List.getLastD_cons, List.getLastD_cons]
          rw [List.getLastD_cons, List.getLastD_cons] at hl
          exact hl
    · have hch : ch = '.' := by
        rcases List.mem_cons.mp h with h' | h'
        · exact h'.symm
        · exact absurd h' hd
      subst hch
      have hs : splitDots ('.' :: cs) = [[], cs] := by
        simp [splitDots, splitDots_no_dot cs hd]
      refine ⟨[], cs, rfl, hd, ?_, ?_⟩
      · rw [hs]; rfl
      · rw [hs, List.getLastD_cons, List.getLastD_cons]
        rfl

theorem fk_mem_detect_candidates (tables : List Table)
    (columns_by_table : String → List Column) (t : Table) (c : Column) (ref : String)
    (ht : t ∈ tables) (hc : c ∈ columns_by_table t.id)
    (h1 : c.is_foreign_key = true) (h2 : c.foreign_key_ref = some ref) (h3 : ref ≠ "") :
    create_fk_relationship t.id c ref ∈ detect_candidates tables columns_by_table := by
  simp only [detect_candidates]
  refine List.mem_flatMap.mpr ⟨t, ht, List.mem_flatMap.mpr ⟨c, hc, ?_⟩⟩
  rw [h2]
  have hmem : create_fk_relationship t.id c ref ∈
      (if c.is_foreign_key = true ∧ ref ≠ "" then [create_fk_relationship t.id c ref]
       else detect_by_naming_convention t c tables columns_by_table) := by
    rw [if_pos ⟨h1, h3⟩]
    exact List.mem_singleton.mpr rfl
  exact hmem

theorem candidates_from_pair (tables : List Table)
    (columns_by_table : String → List Column) (t : Table) (c : Column) (s : String)
    (hc : c ∈ columns_by_table t.id)
    (h1 : c.is_foreign_key = true) (h2 : c.foreign_key_ref = some s) (h3 : s ≠ "")
    (hnodup : ((columns_by_table t.id).map Column.name).Nodup) :
    ∀ r ∈ detect_candidates tables columns_by_table,
      r.from_table_id = t.id → r.from_column = c.name →
      r = create_fk_relationship t.id c s := by
  intro r hr hft hfc
  obtain ⟨t', ht', c', hc', hcase⟩ := mem_detect_candidates tables columns_by_table r hr
  rcases hcase with ⟨ref', href', hfk', hne', rfl⟩ | ⟨hnfk, hnaming⟩
  · have htid : t'.id = t.id := hft
    have hcname : c'.name = c.name := hfc
    have hc'' : c' ∈ columns_by_table t.id := by rw [← htid]; exact hc'
    have hcc : c' = c := eq_of_map_nodup Column.name _ hnodup hc'' hc hcname
    subst hcc
    rw [h2] at href'
    obtain rfl := Option.some.inj href'
    rw [htid]
  · obtain ⟨_, hft', hfc', _, _⟩ := mem_naming_shape t' c' tables columns_by_table r hnaming
    have htid : t'.id = t.id := by rw [← hft']; exact hft
    have hcname : c'.name = c.name := by rw [← hfc']; exact hfc
    have hc'' : c' ∈ columns_by_table t.id := by rw [← htid]; exact hc'
    have hcc : c' = c := eq_of_map_nodup Column.name _ hnodup hc'' hc hcname
    subst hcc
    exact absurd ⟨h1, s, h2, h3⟩ hnfk

/-- C4: a column carrying a truthy explicit foreign-key reference containing
a separator yields exactly one relationship for its (table, column) pair in
the detector's output: the explicit one, with the reference split at its
*last* dot (everything before it, dots included, is the target table id,
everything after it the target column), confidence 1 and method
`explicit_fk`; no naming-convention relationship is emitted for that column
(the column-name uniqueness of a real table is assumed). -/
theorem explicit_fk_last_dot (tables : List Table)
    (columns_by_table : String → List Column) (t : Table) (c : Column) (s : String)
    (ht : t ∈ tables) (hc : c ∈ columns_by_table t.id)
    (h1 : c.is_foreign_key = true) (h2 : c.foreign_key_ref = some s) (h3 : s ≠ "")
    (hdot : '.' ∈ s.data)
    (hnodup : ((columns_by_table t.id).map Column.name).Nodup) :
    ∃ pre post : List Char, s.data = pre ++ '.' :: post ∧ '.' ∉ post ∧
      (∃ r ∈ detect_relationships tables columns_by_table,
        r.from_table_id = t.id ∧ r.from_column = c.name ∧
        r.to_table_id = ⟨pre⟩ ∧ r.to_column = ⟨post⟩ ∧
        r.confidence = 1 ∧ r.detection_method = "explicit_fk") ∧
      (∀ r ∈ detect_relationships tables columns_by_table,
        r.from_table_id = t.id → r.from_column = c.name →
        r = create_fk_relationship t.id c s) := by
  obtain ⟨pre, post, hsplit, hnp, hjoin, hlast⟩ := splitDots_last_dot s.data hdot
  have hfk_mem := fk_mem_detect_candidates tables columns_by_table t c s ht hc h1 h2 h3
  obtain ⟨rr, hrr, hrrk⟩ := dedup_complete _ _ hfk_mem
  have hrr_cand := (mem_deduplicate _ rr hrr).1
  have hpair1 : rr.from_table_id = t.id := congrArg Prod.fst hrrk
  have hpair2 : rr.from_column = c.name := congrArg (fun p => p.2.1) hrrk
  have hrr_eq : rr = create_fk_relationship t.id c s :=
    candidates_from_pair tables columns_by_table t c s hc h1 h2 h3 hnodup
      rr hrr_cand hpair1 hpair2
  refine ⟨pre, post, hsplit, hnp, ⟨rr, ?_, ?_⟩, ?_⟩
  · rw [detect_relationships, mem_sort_by_confidence]
    exact hrr
  · rw [hrr_eq]
    refine ⟨rfl, rfl, ?_, ?_, rfl, rfl⟩
    · show (⟨joinDots (splitDots s.data).dropLast⟩ : String) = ⟨pre⟩
      rw [hjoin]
    · show (⟨(splitDots s.data).getLastD []⟩ : String) = ⟨post⟩
      rw [hlast]
  · intro r hrm hfta hfca
    rw [detect_relationships, mem_sort_by_confidence] at hrm
    exact candidates_from_pair tables columns_by_table t c s hc h1 h2 h3 hnodup
      r (mem_deduplicate _ r hrm).1 hfta hfca

/-- The column of the `explicit_fk_last_dot` witness: its reference
`"ds.customers.id"` contains two separators. -/
def c4_column : Column := ⟨"cust", "STRING", false, true, some "ds.customers.id"⟩

/-- The one-table catalog of the `explicit_fk_last_dot` witness. -/
def c4_tables : List Table := [⟨"t1", "orders"⟩]

/-- Columns of `c4_tables`, keyed by table id. -/
def c4_columns : String → List Column :=
  fun tid => if tid = "t1" then [c4_column] else []

/-- Witness for `explicit_fk_last_dot`: reference `"ds.customers.id"` splits
at its last dot into table id `"ds.customers"` and column `"id"`. -/
theorem explicit_fk_last_dot_witness :
    ∃ pre post : List Char, ("ds.customers.id" : String).data = pre ++ '.' :: post ∧
      '.' ∉ post ∧
      (∃ r ∈ detect_relationships c4_tables c4_columns,
        r.from_table_id = "t1" ∧ r.from_column = "cust" ∧
        r.to_table_id = ⟨pre⟩ ∧ r.to_column = ⟨post⟩ ∧
        r.confidence = 1 ∧ r.detection_method = "explicit_fk") ∧
      (∀ r ∈ detect_relationships c4_tables c4_columns,
        r.from_table_id = "t1" → r.from_column = "cust" →
        r = create_fk_relationship "t1" c4_column "ds.customers.id") :=
  explicit_fk_last_dot c4_tables c4_columns ⟨"t1", "orders"⟩ c4_column "ds.customers.id"
    (by decide) (by decide) rfl rfl (by decide) (by decide) (by decide)

/-- The BFS loop of `GraphEngine.get_related_entities`.  A queue entry is
`(node id, depth)` as in the Python deque; `visited` is the visited set and
`related` the accumulating result list.  The `while queue:` loop is modelled
with explicit fuel; `get_related_entities` passes fuel exceeding the number
of possible iterations (proved in `related_entities_bfs_spec`, whose
completeness direction runs the loop to exhaustion of the queue).
When the node lookup misses (a `KeyError` in the source, impossible for a
graph whose edges stay inside `nodes`), the node is skipped. -/
def reLoop (g : GraphEngine) (start : String) (entity_filter relation_filter : Option String)
    (max_depth : Nat) :
    Nat → List (String × Nat) → List String → List GraphNode → List GraphNode
  | 0, _, _, related => related
  | _ + 1, [], _, related => related
  | fuel + 1, (current_id, depth) :: queue, visited, related =>
    if current_id ∈ visited then
      reLoop g start entity_filter relation_filter max_depth fuel queue visited related
    else
      reLoop g start entity_filter relation_filter max_depth fuel
        (if depth < max_depth then
          queue ++ ((get_neighbors g current_id relation_filter).filter
            (fun nb => !((current_id :: visited).contains nb))).map (fun nb => (nb, depth + 1))
        else queue)
        (current_id :: visited)
        (if current_id ≠ start then
          match get_node g current_id with
          | some node =>
            if entity_filter = none ∨ entity_filter = some node.entity_type then
              related ++ [node]
            else related
          | none => related
        else related)

/-- Every endpoint of every stored edge (outgoing and incoming lists). -/
def edge_endpoints (g : GraphEngine) : List String :=
  (g.edges.flatMap (fun p => p.2.flatMap (fun e => [e.from_node, e.to_node]))) ++
  (g.reverse_edges.flatMap (fun p => p.2.flatMap (fun e => [e.from_node, e.to_node])))

/-- Total number of stored edge entries (an upper bound on any node's
neighbor count). -/
def total_incident (g : GraphEngine) : Nat :=
  (g.edges.map (fun p => p.2.length)).sum + (g.reverse_edges.map (fun p => p.2.length)).sum

/-- Fuel bound for `reLoop`: at most one expansion per distinct reachable id
and at most `total_incident` enqueues per expansion. -/
def re_fuel (g : GraphEngine) (start : String) : Nat :=
  (start :: edge_endpoints g).dedup.length * (total_incident g + 1) + 1

/-- `GraphEngine.get_related_entities`. -/
def get_related_entities (g : GraphEngine) (node_id : String)
    (entity_type relation_type : Option String) (max_depth : Nat) : List GraphNode :=
  if get_node g node_id = none then []
  else
    reLoop g node_id entity_type relation_type max_depth (re_fuel g node_id)
      [(node_id, 0)] [] []

/-- Reachability within a hop bound along the (bidirectional) neighbor
relation that `get_related_entities` traverses. -/
def reachB (g : GraphEngine) : Nat → String → String → Bool
  | 0, a, b => a == b
  | n + 1, a, b => a == b || (get_neighbors g a none).any (fun c => reachB g n c b)

theorem reachB_refl (g : GraphEngine) (m : Nat) (v : String) :
    reachB g m v v = true := by
  cases m <;> simp [reachB]

theorem reachB_succ_intro (g : GraphEngine) (m : Nat) (a b : String)
    (h : a = b ∨ ∃ c ∈ get_neighbors g a none, reachB g m c b = true) :
    reachB g (m + 1) a b = true := by
  simp only [reachB, Bool.or_eq_true, beq_iff_eq, List.any_eq_true]
  exact h

theorem reachB_succ_elim (g : GraphEngine) (m : Nat) (a b : String)
    (h : reachB g (m + 1) a b = true) :
    a = b ∨ ∃ c ∈ get_neighbors g a none, reachB g m c b = true := by
  simp only [reachB, Bool.or_eq_true, beq_iff_eq, List.any_eq_true] at h
  exact h

theorem reachB_succ_of (g : GraphEngine) (m : Nat) :
    ∀ (a b : String), reachB g m a b = true → reachB g (m + 1) a b = true := by
  induction m with
  | zero =>
    intro a b h
    simp only [reachB, beq_iff_eq] at h
    exact reachB_succ_intro g 0 a b (Or.inl h)
  | succ m ih =>
    intro a b h
    rcases reachB_succ_elim g m a b h with h' | ⟨c, hc, h'⟩
    · exact reachB_succ_intro g (m + 1) a b (Or.inl h')
    · exact reachB_succ_intro g (m + 1) a b (Or.inr ⟨c, hc, ih c b h'⟩)

theorem reachB_mono (g : GraphEngine) (m m' : Nat) (hm : m ≤ m') (a b : String)
    (h : reachB g m a b = true) : reachB g m' a b = true := by
  induction m' with
  | zero =>
    obtain rfl := Nat.le_zero.mp hm
    exact h
  | succ m' ih =>
    rcases Nat.lt_or_ge m (m' + 1) with h' | h'
    · exact reachB_succ_of g m' a b (ih (Nat.lt_succ_iff.mp h'))
    · obtain rfl := Nat.le_antisymm hm h'
      exact h

theorem reachB_step (g : GraphEngine) (m : Nat) :
    ∀ (a b w : String), reachB g m a b = true → w ∈ get_neighbors g b none →
      reachB g (m + 1) a w = true := by
  induction m with
  | zero =>
    intro a b w h hw
    simp only [reachB, beq_iff_eq] at h
    subst h
    exact reachB_succ_intro g 0 a w (Or.inr ⟨w, hw, reachB_refl g 0 w⟩)
  | succ m ih =>
    intro a b w h hw
    rcases reachB_succ_elim g m a b h with rfl | ⟨c, hc, h'⟩
    · exact reachB_succ_intro g (m + 1) a w (Or.inr ⟨w, hw, reachB_refl g (m + 1) w⟩)
    · exact reachB_succ_intro g (m + 1) a w (Or.inr ⟨c, hc, ih c b w h' hw⟩)

theorem dget_some_mem {α : Type} (m : List (String × α)) (k : String) (v : α)
    (h : dget m k = some v) : (k, v) ∈ m := by
  induction m with
  | nil => cases h
  | cons q m ih =>
    rw [dget] at h
    by_cases hq : q.1 = k
    · rw [if_pos hq] at h
      obtain rfl := Option.some.inj h
      have hkq : (k, q.2) = q := by rw [← hq]
      rw [hkq]
      exact List.mem_cons_self _ _
    · rw [if_neg hq] at h
      exact List.mem_cons_of_mem _ (ih h)

theorem dgetD_length_le {α : Type} (m : List (String × List α)) (k : String) :
    (dgetD m k).length ≤ (m.map (fun p => p.2.length)).sum := by
  induction m with
  | nil => simp [dgetD, dget]
  | cons q m ih =>
    by_cases hq : q.1 = k
    · rw [dgetD, dget, if_pos hq]
      simp only [List.map_cons, List.sum_cons, Option.getD_some]
      exact Nat.le_add_right _ _
    · rw [dgetD, dget, if_neg hq]
      simp only [List.map_cons, List.sum_cons]
      exact le_trans ih (Nat.le_add_left _ _)

theorem get_neighbors_length_le (g : GraphEngine) (u : String) (rt : Option String) :
    (get_neighbors g u rt).length ≤ total_incident g := by
  have h1 : ∀ es : List GraphEdge,
      ((es.map (fun e => if e.from_node = u then e.to_node else e.from_node)).dedup).length ≤
        es.length := by
    intro es
    exact le_trans (List.Sublist.length_le (List.dedup_sublist _)) (by rw [List.length_map])
  have h2 : (get_all_edges g u).length ≤ total_incident g := by
    rw [get_all_edges, List.length_append, total_incident]
    exact Nat.add_le_add (dgetD_length_le g.edges u) (dgetD_length_le g.reverse_edges u)
  rcases rt with _ | r
  · exact le_trans (h1 _) h2
  · exact le_trans (h1 _) (le_trans (List.length_filter_le _ _) h2)

theorem mem_neighbors_endpoints (g : GraphEngine) (u v : String) (rt : Option String)
    (h : v ∈ get_neighbors g u rt) : v ∈ edge_endpoints g := by
  have h' : ∃ e ∈ get_all_edges g u,
      v = (if e.from_node = u then e.to_node else e.from_node) := by
    rcases rt with _ | r
    · rw [get_neighbors_none_eq, List.mem_dedup, List.mem_map] at h
      obtain ⟨e, he, hv⟩ := h
      exact ⟨e, he, hv.symm⟩
    · simp only [get_neighbors, List.mem_dedup, List.mem_map] at h
      obtain ⟨e, he, hv⟩ := h
      exact ⟨e, (List.mem_filter.mp he).1, hv.symm⟩
  obtain ⟨e, he, hv⟩ := h'
  have hend : v = e.from_node ∨ v = e.to_node := by
    by_cases hf : e.from_node = u
    · rw [hv, if_pos hf]; exact Or.inr rfl
    · rw [hv, if_neg hf]; exact Or.inl rfl
  rcases List.mem_append.mp he with he' | he'
  · obtain ⟨p, hp, hpe⟩ := mem_dgetD_mem g.edges u e he'
    rw [edge_endpoints]
    refine List.mem_append_left _ (List.mem_flatMap.mpr ⟨p, hp,
      List.mem_flatMap.mpr ⟨e, hpe, ?_⟩⟩)
    rcases hend with rfl | rfl
    · exact List.mem_cons_self _ _
    · exact List.mem_cons_of_mem _ (List.mem_singleton.mpr rfl)
  · obtain ⟨p, hp, hpe⟩ := mem_dgetD_mem g.reverse_edges u e he'
    rw [edge_endpoints]
    refine List.mem_append_right _ (List.mem_flatMap.mpr ⟨p, hp,
      List.mem_flatMap.mpr ⟨e, hpe, ?_⟩⟩)
    rcases hend with rfl | rfl
    · exact List.mem_cons_self _ _
    · exact List.mem_cons_of_mem _ (List.mem_singleton.mpr rfl)

theorem neighbors_dom (g : GraphEngine)
    (hclosed : ∀ p ∈ g.edges ++ g.reverse_edges, ∀ e ∈ p.2,
      get_node g e.from_node ≠ none ∧ get_node g e.to_node ≠ none)
    (u v : String) (h : v ∈ get_neighbors g u none) : get_node g v ≠ none := by
  rw [get_neighbors_none_eq, List.mem_dedup, List.mem_map] at h
  obtain ⟨e, he, hv⟩ := h
  have hend : v = e.from_node ∨ v = e.to_node := by
    by_cases hf : e.from_node = u
    · rw [← hv, if_pos hf]; exact Or.inr rfl
    · rw [← hv, if_neg hf]; exact Or.inl rfl
  have hcl : get_node g e.from_node ≠ none ∧ get_node g e.to_node ≠ none := by
    rcases List.mem_append.mp he with he' | he'
    · obtain ⟨p, hp, hpe⟩ := mem_dgetD_mem g.edges u e he'
      exact hclosed p (List.mem_append_left _ hp) e hpe
    · obtain ⟨p, hp, hpe⟩ := mem_dgetD_mem g.reverse_edges u e he'
      exact hclosed p (List.mem_append_right _ hp) e hpe
  rcases hend with rfl | rfl
  · exact hcl.1
  · exact hcl.2

theorem reachB_dom (g : GraphEngine)
    (hclosed : ∀ p ∈ g.edges ++ g.reverse_edges, ∀ e ∈ p.2,
      get_node g e.from_node ≠ none ∧ get_node g e.to_node ≠ none)
    (m : Nat) : ∀ (a v : String), reachB g m a v = true →
      v = a ∨ get_node g v ≠ none := by
  induction m with
  | zero =>
    intro a v h
    simp only [reachB, beq_iff_eq] at h
    exact Or.inl h.symm
  | succ m ih =>
    intro a v h
    rcases reachB_succ_elim g m a v h with h' | ⟨c, hc, h'⟩
    · exact Or.inl h'.symm
    · rcases ih c v h' with rfl | h''
      · exact Or.inr (neighbors_dom g hclosed a v hc)
      · exact Or.inr h''

/-- The loop invariant of `get_related_entities`' BFS (relation and entity
filters `None`).  `D` records the depth at which each visited node was
dequeued.  Components: the queue depths are sorted and span at most two
consecutive levels; every queue entry is reachable within its depth; every
visited node is reachable within its recorded depth; every neighbor of an
expanded visited node is visited at depth at most one deeper or still
enqueued at such a depth; visited depths never exceed queued depths; the
result list mirrors the visited set minus the start; and queue ids are
endpoints (for the fuel bound). -/
def reInv (g : GraphEngine) (start : String) (d : Nat) (q : List (String × Nat))
    (vis : List String) (rel : List GraphNode) (D : String → Nat) : Prop :=
  List.Pairwise (· ≤ ·) (q.map Prod.snd) ∧
  (∀ e ∈ q, ∀ f ∈ q, e.2 ≤ f.2 + 1) ∧
  (∀ e ∈ q, e.2 ≤ d ∧ reachB g e.2 start e.1 = true) ∧
  (∀ u ∈ vis, D u ≤ d ∧ reachB g (D u) start u = true) ∧
  (∀ u ∈ vis, D u < d → ∀ w ∈ get_neighbors g u none,
    (w ∈ vis ∧ D w ≤ D u + 1) ∨ ∃ dw, dw ≤ D u + 1 ∧ (w, dw) ∈ q) ∧
  (∀ u ∈ vis, ∀ e ∈ q, D u ≤ e.2) ∧
  ((rel.map GraphNode.node_id).Nodup ∧
    (∀ n ∈ rel, n.node_id ∈ vis ∧ n.node_id ≠ start ∧ get_node g n.node_id = some n) ∧
    (∀ u ∈ vis, u ≠ start → ∃ n ∈ rel, n.node_id = u)) ∧
  (∀ e ∈ q, e.1 ∈ start :: edge_endpoints g)

/-- The termination measure of the BFS loop. -/
def reMu (g : GraphEngine) (start : String) (q : List (String × Nat))
    (vis : List String) : Nat :=
  ((start :: edge_endpoints g).toFinset \ vis.toFinset).card * (total_incident g + 1) +
    q.length

theorem reInv_skip (g : GraphEngine) (start : String) (d : Nat) (q : List (String × Nat))
    (vis : List String) (rel : List GraphNode) (D : String → Nat) (cur : String) (dc : Nat)
    (inv : reInv g start d ((cur, dc) :: q) vis rel D) (hv : cur ∈ vis) :
    reInv g start d q vis rel D := by
  obtain ⟨hS, hB, hQ, hV1, hV2, hV4, hR, hI⟩ := inv
  refine ⟨?_, ?_, ?_, hV1, ?_, ?_, hR, ?_⟩
  · rw [List.map_cons] at hS
    exact (List.pairwise_cons.mp hS).2
  · intro e he f hf
    exact hB e (List.mem_cons_of_mem _ he) f (List.mem_cons_of_mem _ hf)
  · intro e he
    exact hQ e (List.mem_cons_of_mem _ he)
  · intro u hu hud w hw
    rcases hV2 u hu hud w hw with h | ⟨dw, hdw, hmem⟩
    · exact Or.inl h
    · rcases List.mem_cons.mp hmem with heq | hmem'
      · have hw_cur : w = cur := congrArg Prod.fst heq
        have hdw_dc : dw = dc := congrArg Prod.snd heq
        subst hw_cur
        refine Or.inl ⟨hv, ?_⟩
        have hDc : D w ≤ dc := hV4 w hv (w, dc) (hdw_dc ▸ heq ▸ List.mem_cons_self _ _)
        omega
      · exact Or.inr ⟨dw, hdw, hmem'⟩
  · intro u hu e he
    exact hV4 u hu e (List.mem_cons_of_mem _ he)
  · intro e he
    exact hI e (List.mem_cons_of_mem _ he)

theorem reVWalk (g : GraphEngine) (start : String) (d : Nat) (q : List (String × Nat))
    (vis : List String) (rel : List GraphNode) (D : String → Nat)
    (inv : reInv g start d q vis rel D) :
    ∀ (m : Nat) (u v : String), u ∈ vis → reachB g m u v = true → D u + m ≤ d →
      v ∈ vis ∨ ∃ w dw m', (w, dw) ∈ q ∧ reachB g m' w v = true ∧ dw + m' ≤ d := by
  obtain ⟨_, _, _, _, hV2, _, _, _⟩ := inv
  intro m
  induction m with
  | zero =>
    intro u v hu h _
    simp only [reachB, beq_iff_eq] at h
    exact Or.inl (h ▸ hu)
  | succ m ih =>
    intro u v hu h hle
    rcases reachB_succ_elim g m u v h with rfl | ⟨c, hc, h'⟩
    · exact Or.inl hu
    · have hud : D u < d := by omega
      rcases hV2 u hu hud c hc with ⟨hcv, hcd⟩ | ⟨dw, hdw, hmem⟩
      · exact ih c v hcv h' (by omega)
      · exact Or.inr ⟨c, dw, m, hmem, h', by omega⟩

theorem reLoop_mono (g : GraphEngine) (start : String)
    (et rt : Option String) (d : Nat) :
    ∀ (fuel : Nat) (q : List (String × Nat)) (vis : List String) (rel : List GraphNode)
      (n : GraphNode), n ∈ rel → n ∈ reLoop g start et rt d fuel q vis rel := by
  intro fuel
  induction fuel with
  | zero => intro q vis rel n h; exact h
  | succ fuel ih =>
    intro q vis rel n h
    cases q with
    | nil => exact h
    | cons e queue =>
      obtain ⟨cur, dc⟩ := e
      by_cases hv : cur ∈ vis
      · rw [reLoop, if_pos hv]
        exact ih queue vis rel n h
      · rw [reLoop, if_neg hv]
        refine ih _ _ _ n ?_
        by_cases hc : cur ≠ start
        · rw [if_pos hc]
          rcases hn : get_node g cur with _ | node
          · exact h
          · show n ∈ (if et = none ∨ et = some node.entity_type then rel ++ [node] else rel)
            by_cases hf : et = none ∨ et = some node.entity_type
            · rw [if_pos hf]
              exact List.mem_append_left _ h
            · rw [if_neg hf]
              exact h
        · rw [if_neg hc]
          exact h

theorem pairwise_le_map_const {α : Type} (l : List α) (k : Nat) :
    List.Pairwise (· ≤ ·) (l.map (fun _ => k)) := by
  induction l with
  | nil => simp
  | cons a l ih =>
    rw [List.map_cons, List.pairwise_cons]
    refine ⟨?_, ih⟩
    intro b hb
    obtain ⟨x, _, rfl⟩ := List.mem_map.mp hb
    exact le_refl k

theorem pairwise_snd_append_new (q : List (String × Nat)) (l : List String) (k : Nat)
    (hq : List.Pairwise (· ≤ ·) (q.map Prod.snd))
    (hbound : ∀ e ∈ q, e.2 ≤ k) :
    List.Pairwise (· ≤ ·) ((q ++ l.map (fun nb => (nb, k))).map Prod.snd) := by
  rw [List.map_append, List.pairwise_append]
  refine ⟨hq, ?_, ?_⟩
  · rw [List.map_map]
    exact pairwise_le_map_const l k
  · intro x hx y hy
    rw [List.map_map] at hy
    obtain ⟨nb, _, rfl⟩ := List.mem_map.mp hy
    obtain ⟨e, he, rfl⟩ := List.mem_map.mp hx
    exact hbound e he

theorem not_contains_iff (l : List String) (x : String) :
    ((!(l.contains x)) = true) ↔ x ∉ l := by
  simp

/-- Preservation of the BFS invariant when the dequeued node `cur` is not
yet visited: the loop expands it, enqueueing unvisited neighbors one level
deeper (when `dc < d`), marks it visited at depth `dc`, and appends its
stored node to the results unless it is the start node. -/
theorem reInv_expand (g : GraphEngine) (start : String) (d : Nat)
    (hstart : get_node g start ≠ none)
    (hwf : ∀ p ∈ g.nodes, p.2.node_id = p.1)
    (hclosed : ∀ p ∈ g.edges ++ g.reverse_edges, ∀ e ∈ p.2,
      get_node g e.from_node ≠ none ∧ get_node g e.to_node ≠ none)
    (q : List (String × Nat)) (vis : List String) (rel : List GraphNode)
    (D : String → Nat) (cur : String) (dc : Nat)
    (inv : reInv g start d ((cur, dc) :: q) vis rel D) (hv : cur ∉ vis) :
    reInv g start d
      (if dc < d then
        q ++ ((get_neighbors g cur none).filter
          (fun nb => !((cur :: vis).contains nb))).map (fun nb => (nb, dc + 1))
      else q)
      (cur :: vis)
      (if cur ≠ start then
        match get_node g cur with
        | some node =>
          if (none : Option String) = none ∨ (none : Option String) = some node.entity_type
          then rel ++ [node] else rel
        | none => rel
      else rel)
      (fun x => if x = cur then dc else D x) := by
  obtain ⟨hS, hB, hQ, hV1, hV2, hV4, hR, hI⟩ := inv
  obtain ⟨hdcd, hreach⟩ := hQ (cur, dc) (List.mem_cons_self _ _)
  rw [List.map_cons] at hS
  have hfront := (List.pairwise_cons.mp hS).1
  have hStail := (List.pairwise_cons.mp hS).2
  have hfront' : ∀ e ∈ q, dc ≤ e.2 := fun e he => hfront e.2 (List.mem_map_of_mem _ he)
  have hBfront : ∀ e ∈ q, e.2 ≤ dc + 1 := fun e he =>
    hB e (List.mem_cons_of_mem _ he) (cur, dc) (List.mem_cons_self _ _)
  have hne : ∀ u ∈ vis, u ≠ cur := fun u hu heq => hv (heq ▸ hu)
  have hdom : get_node g cur ≠ none := by
    rcases reachB_dom g hclosed dc start cur hreach with heq | h
    · rw [heq]
      exact hstart
    · exact h
  obtain ⟨node, hnode⟩ := Option.ne_none_iff_exists'.mp hdom
  have hnid : node.node_id = cur := hwf (cur, node) (dget_some_mem g.nodes cur node hnode)
  have hrel' : (if cur ≠ start then
      match get_node g cur with
      | some node =>
        if (none : Option String) = none ∨ (none : Option String) = some node.entity_type
        then rel ++ [node] else rel
      | none => rel
    else rel) = (if cur ≠ start then rel ++ [node] else rel) := by
    by_cases hc : cur ≠ start
    · rw [if_pos hc, if_pos hc, hnode]
      show (if (none : Option String) = none ∨
          (none : Option String) = some node.entity_type
        then rel ++ [node] else rel) = rel ++ [node]
      rw [if_pos (Or.inl rfl)]
    · rw [if_neg hc, if_neg hc]
  rw [hrel']
  set D' : String → Nat := fun x => if x = cur then dc else D x with hDDeq
  have hD'cur : D' cur = dc := by
    rw [hDDeq]
    simp
  have hD'ne : ∀ x, x ≠ cur → D' x = D x := by
    intro x hx
    rw [hDDeq]
    simp [hx]
  have hV1' : ∀ u ∈ cur :: vis, D' u ≤ d ∧ reachB g (D' u) start u = true := by
    intro u hu
    rcases List.mem_cons.mp hu with rfl | hu'
    · rw [hD'cur]
      exact ⟨hdcd, hreach⟩
    · rw [hD'ne u (hne u hu')]
      exact hV1 u hu'
  obtain ⟨hRn, hRm, hRc⟩ := hR
  have hR' : (((if cur ≠ start then rel ++ [node] else rel).map GraphNode.node_id).Nodup ∧
      (∀ n ∈ (if cur ≠ start then rel ++ [node] else rel),
        n.node_id ∈ cur :: vis ∧ n.node_id ≠ start ∧ get_node g n.node_id = some n) ∧
      (∀ u ∈ cur :: vis, u ≠ start →
        ∃ n ∈ (if cur ≠ start then rel ++ [node] else rel), n.node_id = u)) := by
    by_cases hc : cur ≠ start
    · rw [if_pos hc]
      refine ⟨?_, ?_, ?_⟩
      · rw [List.map_append, List.nodup_append]
        refine ⟨hRn, by simp, ?_⟩
        intro x hx hx2
        obtain ⟨n, hn, rfl⟩ := List.mem_map.mp hx
        rw [List.map_cons, List.map_nil, List.mem_singleton] at hx2
        have hcc : n.node_id = cur := by rw [hx2, hnid]
        exact hv (hcc ▸ (hRm n hn).1)
      · intro n hn
        rcases List.mem_append.mp hn with hn' | hn'
        · obtain ⟨ha, hb, hcc⟩ := hRm n hn'
          exact ⟨List.mem_cons_of_mem _ ha, hb, hcc⟩
        · rw [List.mem_singleton.mp hn']
          rw [hnid]
          exact ⟨List.mem_cons_self _ _, hc, hnode⟩
      · intro u hu hus
        rcases List.mem_cons.mp hu with rfl | hu'
        · exact ⟨node, List.mem_append_right _ (List.mem_singleton.mpr rfl), hnid⟩
        · obtain ⟨n, hn, hn2⟩ := hRc u hu' hus
          exact ⟨n, List.mem_append_left _ hn, hn2⟩
    · rw [if_neg hc]
      rw [not_not] at hc
      refine ⟨hRn, ?_, ?_⟩
      · intro n hn
        obtain ⟨ha, hb, hcc⟩ := hRm n hn
        exact ⟨List.mem_cons_of_mem _ ha, hb, hcc⟩
      · intro u hu hus
        rcases List.mem_cons.mp hu with rfl | hu'
        · exact absurd hc hus
        · exact hRc u hu' hus
  by_cases hdc : dc < d
  · rw [if_pos hdc]
    have hnew : ∀ e ∈ ((get_neighbors g cur none).filter
        (fun nb => !((cur :: vis).contains nb))).map (fun nb => (nb, dc + 1)),
        e.2 = dc + 1 ∧ e.1 ∈ get_neighbors g cur none ∧ e.1 ∉ cur :: vis := by
      intro e he
      obtain ⟨nb, hnb, rfl⟩ := List.mem_map.mp he
      obtain ⟨hnb1, hnb2⟩ := List.mem_filter.mp hnb
      exact ⟨rfl, hnb1, (not_contains_iff _ _).mp hnb2⟩
    refine ⟨?_, ?_, ?_, hV1', ?_, ?_, hR', ?_⟩
    · exact pairwise_snd_append_new q _ (dc + 1) hStail hBfront
    · intro e he f hf
      rcases List.mem_append.mp he with he' | he' <;>
        rcases List.mem_append.mp hf with hf' | hf'
      · exact hB e (List.mem_cons_of_mem _ he') f (List.mem_cons_of_mem _ hf')
      · have h1 := hBfront e he'
        have h2 := (hnew f hf').1
        omega
      · have h1 := (hnew e he').1
        have h2 := hfront' f hf'
        omega
      · have h1 := (hnew e he').1
        have h2 := (hnew f hf').1
        omega
    · intro e he
      rcases List.mem_append.mp he with he' | he'
      · exact hQ e (List.mem_cons_of_mem _ he')
      · obtain ⟨h2, hmem, _⟩ := hnew e he'
        rw [h2]
        exact ⟨hdc, reachB_step g dc start cur e.1 hreach hmem⟩
    · intro u hu hud w hw
      rcases List.mem_cons.mp hu with heq | hu'
      · rw [heq] at hud hw ⊢
        by_cases hwv : w ∈ cur :: vis
        · refine Or.inl ⟨hwv, ?_⟩
          rcases List.mem_cons.mp hwv with heq2 | hwv'
          · rw [heq2, hD'cur]
            omega
          · rw [hD'ne w (hne w hwv'), hD'cur]
            have h3 : D w ≤ dc := hV4 w hwv' (cur, dc) (List.mem_cons_self _ _)
            omega
        · refine Or.inr ⟨dc + 1, by omega, ?_⟩
          refine List.mem_append_right _ (List.mem_map.mpr ⟨w, ?_, rfl⟩)
          exact List.mem_filter.mpr ⟨hw, (not_contains_iff _ _).mpr hwv⟩
      · have hnu := hne u hu'
        rw [hD'ne u hnu] at hud ⊢
        rcases hV2 u hu' hud w hw with ⟨hwv, hwd⟩ | ⟨dw, hdw, hmem⟩
        · refine Or.inl ⟨List.mem_cons_of_mem _ hwv, ?_⟩
          rw [hD'ne w (hne w hwv)]
          exact hwd
        · rcases List.mem_cons.mp hmem with heq | hmem'
          · have hwcur : w = cur := congrArg Prod.fst heq
            have hdwdc : dw = dc := congrArg Prod.snd heq
            subst hwcur
            refine Or.inl ⟨List.mem_cons_self _ _, ?_⟩
            rw [hD'cur]
            omega
          · exact Or.inr ⟨dw, hdw, List.mem_append_left _ hmem'⟩
    · intro u hu e he
      rcases List.mem_cons.mp hu with rfl | hu'
      · rw [hD'cur]
        rcases List.mem_append.mp he with he' | he'
        · exact hfront' e he'
        · rw [(hnew e he').1]
          omega
      · rw [hD'ne u (hne u hu')]
        rcases List.mem_append.mp he with he' | he'
        · exact hV4 u hu' e (List.mem_cons_of_mem _ he')
        · rw [(hnew e he').1]
          have h3 : D u ≤ dc := hV4 u hu' (cur, dc) (List.mem_cons_self _ _)
          omega
    · intro e he
      rcases List.mem_append.mp he with he' | he'
      · exact hI e (List.mem_cons_of_mem _ he')
      · obtain ⟨_, hmem, _⟩ := hnew e he'
        exact List.mem_cons_of_mem _ (mem_neighbors_endpoints g cur e.1 none hmem)
  · rw [if_neg hdc]
    refine ⟨hStail, ?_, ?_, hV1', ?_, ?_, hR', ?_⟩
    · intro e he f hf
      exact hB e (List.mem_cons_of_mem _ he) f (List.mem_cons_of_mem _ hf)
    · intro e he
      exact hQ e (List.mem_cons_of_mem _ he)
    · intro u hu hud w hw
      rcases List.mem_cons.mp hu with rfl | hu'
      · rw [hD'cur] at hud
        exact absurd hud hdc
      · have hnu := hne u hu'
        rw [hD'ne u hnu] at hud ⊢
        rcases hV2 u hu' hud w hw with ⟨hwv, hwd⟩ | ⟨dw, hdw, hmem⟩
        · refine Or.inl ⟨List.mem_cons_of_mem _ hwv, ?_⟩
          rw [hD'ne w (hne w hwv)]
          exact hwd
        · rcases List.mem_cons.mp hmem with heq | hmem'
          · have hwcur : w = cur := congrArg Prod.fst heq
            have hdwdc : dw = dc := congrArg Prod.snd heq
            subst hwcur
            refine Or.inl ⟨List.mem_cons_self _ _, ?_⟩
            rw [hD'cur]
            omega
          · exact Or.inr ⟨dw, hdw, hmem'⟩
    · intro u hu e he
      rcases List.mem_cons.mp hu with rfl | hu'
      · rw [hD'cur]
        exact hfront' e he
      · rw [hD'ne u (hne u hu')]
        exact hV4 u hu' e (List.mem_cons_of_mem _ he)
    · intro e he
      exact hI e (List.mem_cons_of_mem _ he)

/-- The termination measure strictly decreases when an unvisited node `cur`
(one of the finitely many endpoints) is expanded, even though up to
`total_incident g` new entries join the queue. -/
theorem reMu_expand_le (g : GraphEngine) (start : String) (q2 q' : List (String × Nat))
    (dc : Nat) (vis : List String) (cur : String) (fuel : Nat)
    (hv : cur ∉ vis) (hcur : cur ∈ start :: edge_endpoints g)
    (hlen : q2.length ≤ q'.length + total_incident g)
    (hmu : reMu g start ((cur, dc) :: q') vis ≤ fuel + 1) :
    reMu g start q2 (cur :: vis) ≤ fuel := by
  rw [reMu] at hmu ⊢
  have hcurD : cur ∈ (start :: edge_endpoints g).toFinset \ vis.toFinset :=
    Finset.mem_sdiff.mpr ⟨List.mem_toFinset.mpr hcur,
      fun hc => hv (List.mem_toFinset.mp hc)⟩
  have hsub : (start :: edge_endpoints g).toFinset \ (cur :: vis).toFinset ⊆
      ((start :: edge_endpoints g).toFinset \ vis.toFinset).erase cur := by
    intro x hx
    rw [Finset.mem_sdiff] at hx
    rw [Finset.mem_erase, Finset.mem_sdiff]
    refine ⟨?_, hx.1, ?_⟩
    · intro heq
      exact hx.2 (List.mem_toFinset.mpr (by rw [heq]; exact List.mem_cons_self _ _))
    · intro hc
      exact hx.2 (List.mem_toFinset.mpr (List.mem_cons_of_mem _ (List.mem_toFinset.mp hc)))
  have hcard : ((start :: edge_endpoints g).toFinset \ (cur :: vis).toFinset).card + 1 ≤
      ((start :: edge_endpoints g).toFinset \ vis.toFinset).card := by
    have h1 := Finset.card_le_card hsub
    rw [Finset.card_erase_of_mem hcurD] at h1
    have h2 : 1 ≤ ((start :: edge_endpoints g).toFinset \ vis.toFinset).card :=
      Finset.card_pos.mpr ⟨cur, hcurD⟩
    omega
  set A := ((start :: edge_endpoints g).toFinset \ vis.toFinset).card with hA
  set A2 := ((start :: edge_endpoints g).toFinset \ (cur :: vis).toFinset).card with hA2
  set T := total_incident g with hT
  have hmul : A2 * (T + 1) + (T + 1) ≤ A * (T + 1) := by
    have h1 : (A2 + 1) * (T + 1) ≤ A * (T + 1) := Nat.mul_le_mul_right _ hcard
    calc A2 * (T + 1) + (T + 1) = (A2 + 1) * (T + 1) := by ring
      _ ≤ A * (T + 1) := h1
  have hq : ((cur, dc) :: q').length = q'.length + 1 := List.length_cons _ _
  omega

/-- After the queue empties, the result components of the invariant give
the postcondition of `get_related_entities`: unique ids, every result node
distinct from the start, stored, and reachable within `d` hops; and (given
coverage of the start) every node reachable within `d` hops represented. -/
theorem reLoop_final (g : GraphEngine) (start : String) (d : Nat)
    (vis : List String) (rel : List GraphNode) (D : String → Nat)
    (inv : reInv g start d [] vis rel D)
    (hcov : ∀ (v : String) (m : Nat), m ≤ d → reachB g m start v = true →
      v ∈ vis ∨ ∃ w dw m', (w, dw) ∈ ([] : List (String × Nat)) ∧
        reachB g m' w v = true ∧ dw + m' ≤ d) :
    (rel.map GraphNode.node_id).Nodup ∧
    (∀ n ∈ rel, n.node_id ≠ start ∧ get_node g n.node_id = some n ∧
      ∃ m, m ≤ d ∧ reachB g m start n.node_id = true) ∧
    (∀ (v : String) (m : Nat), v ≠ start → m ≤ d → reachB g m start v = true →
      ∃ n ∈ rel, n.node_id = v) := by
  obtain ⟨_, _, _, hV1, _, _, ⟨hRn, hRm, hRc⟩, _⟩ := inv
  refine ⟨hRn, ?_, ?_⟩
  · intro n hn
    obtain ⟨hvn, hns, hgn⟩ := hRm n hn
    obtain ⟨hd1, hd2⟩ := hV1 n.node_id hvn
    exact ⟨hns, hgn, D n.node_id, hd1, hd2⟩
  · intro v m hvs hm hr
    rcases hcov v m hm hr with hvv | ⟨w, dw, m', hmem, _⟩
    · exact hRc v hvv hvs
    · cases hmem

/-- The main induction for the BFS of `get_related_entities` (no filters):
from any state satisfying the invariant, covered by the queue, and with
enough fuel for the measure, the loop returns exactly the stored nodes
other than `start` that are reachable within `d` hops, without duplicates. -/
theorem reLoop_post (g : GraphEngine) (start : String) (d : Nat)
    (hstart : get_node g start ≠ none)
    (hwf : ∀ p ∈ g.nodes, p.2.node_id = p.1)
    (hclosed : ∀ p ∈ g.edges ++ g.reverse_edges, ∀ e ∈ p.2,
      get_node g e.from_node ≠ none ∧ get_node g e.to_node ≠ none) :
    ∀ (fuel : Nat) (q : List (String × Nat)) (vis : List String) (rel : List GraphNode)
      (D : String → Nat),
      reInv g start d q vis rel D →
      reMu g start q vis ≤ fuel →
      (∀ (v : String) (m : Nat), m ≤ d → reachB g m start v = true →
        v ∈ vis ∨ ∃ w dw m', (w, dw) ∈ q ∧ reachB g m' w v = true ∧ dw + m' ≤ d) →
      (((reLoop g start none none d fuel q vis rel).map GraphNode.node_id).Nodup ∧
       (∀ n ∈ reLoop g start none none d fuel q vis rel,
         n.node_id ≠ start ∧ get_node g n.node_id = some n ∧
         ∃ m, m ≤ d ∧ reachB g m start n.node_id = true) ∧
       (∀ (v : String) (m : Nat), v ≠ start → m ≤ d → reachB g m start v = true →
         ∃ n ∈ reLoop g start none none d fuel q vis rel, n.node_id = v)) := by
  intro fuel
  induction fuel with
  | zero =>
    intro q vis rel D inv hmu hcov
    have hq : q = [] := by
      rw [reMu] at hmu
      exact List.length_eq_zero.mp (by omega)
    subst hq
    exact reLoop_final g start d vis rel D inv hcov
  | succ fuel ih =>
    intro q vis rel D inv hmu hcov
    cases q with
    | nil => exact reLoop_final g start d vis rel D inv hcov
    | cons e q' =>
      obtain ⟨cur, dc⟩ := e
      by_cases hv : cur ∈ vis
      · rw [reLoop, if_pos hv]
        have inv2 := reInv_skip g start d q' vis rel D cur dc inv hv
        refine ih q' vis rel D inv2 ?_ ?_
        · rw [reMu] at hmu ⊢
          have hq : ((cur, dc) :: q').length = q'.length + 1 := List.length_cons _ _
          omega
        · intro v m hm hr
          rcases hcov v m hm hr with hvv | ⟨w, dw, m', hmem, hre, hle⟩
          · exact Or.inl hvv
          · rcases List.mem_cons.mp hmem with heq | hmem'
            · have hw : w = cur := congrArg Prod.fst heq
              have hdw : dw = dc := congrArg Prod.snd heq
              have hDc : D cur ≤ dc := by
                obtain ⟨_, _, _, _, _, hV4, _, _⟩ := inv
                exact hV4 cur hv (cur, dc) (List.mem_cons_self _ _)
              rw [hw] at hre
              rw [hdw] at hle
              exact reVWalk g start d q' vis rel D inv2 m' cur v hv hre (by omega)
            · exact Or.inr ⟨w, dw, m', hmem', hre, hle⟩
      · rw [reLoop, if_neg hv]
        have inv2 := reInv_expand g start d hstart hwf hclosed q' vis rel D cur dc inv hv
        have hcur : cur ∈ start :: edge_endpoints g := by
          obtain ⟨_, _, _, _, _, _, _, hI⟩ := inv
          exact hI (cur, dc) (List.mem_cons_self _ _)
        have hcov2 : ∀ (v : String) (m : Nat), m ≤ d → reachB g m start v = true →
            v ∈ cur :: vis ∨ ∃ w dw m',
              (w, dw) ∈ (if dc < d then
                q' ++ ((get_neighbors g cur none).filter
                  (fun nb => !((cur :: vis).contains nb))).map (fun nb => (nb, dc + 1))
              else q') ∧ reachB g m' w v = true ∧ dw + m' ≤ d := by
          intro v m hm hr
          rcases hcov v m hm hr with hvv | ⟨w, dw, m', hmem, hre, hle⟩
          · exact Or.inl (List.mem_cons_of_mem _ hvv)
          · rcases List.mem_cons.mp hmem with heq | hmem'
            · have hw : w = cur := congrArg Prod.fst heq
              have hdw : dw = dc := congrArg Prod.snd heq
              rw [hw] at hre
              rw [hdw] at hle
              refine reVWalk g start d _ (cur :: vis) _ _ inv2 m' cur v
                (List.mem_cons_self _ _) hre ?_
              simpa using hle
            · refine Or.inr ⟨w, dw, m', ?_, hre, hle⟩
              by_cases hdc : dc < d
              · rw [if_pos hdc]
                exact List.mem_append_left _ hmem'
              · rw [if_neg hdc]
                exact hmem'
        refine ih _ _ _ _ inv2 ?_ hcov2
        refine reMu_expand_le g start _ q' dc vis cur fuel hv hcur ?_ hmu
        by_cases hdc : dc < d
        · rw [if_pos hdc, List.length_append]
          have h1 : (((get_neighbors g cur none).filter
              (fun nb => !((cur :: vis).contains nb))).map
                (fun nb => (nb, dc + 1))).length ≤ total_incident g := by
            rw [List.length_map]
            exact le_trans (List.length_filter_le _ _) (get_neighbors_length_le g cur none)
          omega
        · rw [if_neg hdc]
          exact Nat.le_add_right _ _

/-- The edge `C→D` of the chain scenario (strength 1.0). -/
def edge_CD : GraphEdge := ⟨"C", "D", "customer_invoice", 1⟩

/-- The chain graph `A–B–C–D` of spec Scenario C: the state `add_edge`
builds from the edges `A→B`, `B→C`, `C→D` (each edge is also indexed under
its target in `reverse_edges`, so neighborhoods are bidirectional). -/
def chain_graph : GraphEngine :=
  ⟨[("A", ⟨"A", "customer"⟩), ("B", ⟨"B", "invoice"⟩), ("C", ⟨"C", "contact"⟩),
    ("D", ⟨"D", "interaction"⟩)],
   [("A", [edge_AB]), ("B", [edge_BC]), ("C", [edge_CD])],
   [("B", [edge_AB]), ("C", [edge_BC]), ("D", [edge_CD])]⟩

/-- C5: `get_related_entities(id, max_depth = d)` (no filters) is an exact
breadth-first traversal.  On any graph whose stored nodes are keyed by
their own id and whose edges join stored nodes, and whose start node
exists, the result (i) contains no duplicate node ids, (ii) never contains
the starting node, contains only stored nodes, each reachable within `d`
hops of the bidirectional neighbor relation, and (iii) contains every node
other than the start reachable within `d` hops.  In particular, on the
chain graph `A–B–C–D`, `get_related_entities("A", max_depth = 2)` returns
exactly the nodes `B` and `C` (in BFS discovery order). -/
theorem related_entities_bfs_spec :
    (∀ (g : GraphEngine) (start : String) (d : Nat),
      get_node g start ≠ none →
      (∀ p ∈ g.nodes, p.2.node_id = p.1) →
      (∀ p ∈ g.edges ++ g.reverse_edges, ∀ e ∈ p.2,
        get_node g e.from_node ≠ none ∧ get_node g e.to_node ≠ none) →
      (((get_related_entities g start none none d).map GraphNode.node_id).Nodup ∧
       (∀ n ∈ get_related_entities g start none none d,
         n.node_id ≠ start ∧ get_node g n.node_id = some n ∧
         ∃ m, m ≤ d ∧ reachB g m start n.node_id = true) ∧
       (∀ (v : String) (m : Nat), v ≠ start → m ≤ d → reachB g m start v = true →
         ∃ n ∈ get_related_entities g start none none d, n.node_id = v))) ∧
    (get_related_entities chain_graph "A" none none 2).map GraphNode.node_id =
      ["B", "C"] := by
  constructor
  · intro g start d hstart hwf hclosed
    rw [get_related_entities, if_neg hstart]
    refine reLoop_post g start d hstart hwf hclosed (re_fuel g start)
      [(start, 0)] [] [] (fun _ => 0) ⟨?_, ?_, ?_, ?_, ?_, ?_, ⟨?_, ?_, ?_⟩, ?_⟩ ?_ ?_
    · simp
    · intro e he f hf
      rw [List.mem_singleton] at he hf
      rw [he, hf]
      exact Nat.le_succ _
    · intro e he
      rw [List.mem_singleton] at he
      rw [he]
      exact ⟨Nat.zero_le d, reachB_refl g 0 start⟩
    · intro u hu
      cases hu
    · intro u hu
      cases hu
    · intro u hu
      cases hu
    · exact List.nodup_nil
    · intro n hn
      cases hn
    · intro u hu
      cases hu
    · intro e he
      rw [List.mem_singleton] at he
      rw [he]
      exact List.mem_cons_self _ _
    · rw [reMu, re_fuel, List.toFinset_nil, Finset.sdiff_empty, List.card_toFinset]
      simp
    · intro v m hm hr
      exact Or.inr ⟨start, 0, m, List.mem_singleton.mpr rfl, hr, by omega⟩
  · decide

/-- Witness for `related_entities_bfs_spec`: on the chain graph `A–B–C–D`
the hypotheses of the general statement hold concretely, and the traversal
from `"A"` with `max_depth = 2` yields node ids exactly `["B", "C"]`,
without duplicates. -/
theorem related_entities_bfs_spec_witness :
    get_node chain_graph "A" ≠ none ∧
    ((get_related_entities chain_graph "A" none none 2).map GraphNode.node_id).Nodup ∧
    (get_related_entities chain_graph "A" none none 2).map GraphNode.node_id =
      ["B", "C"] := by
  refine ⟨by decide, ?_, related_entities_bfs_spec.2⟩
  exact (related_entities_bfs_spec.1 chain_graph "A" 2 (by decide) (by decide)
    (by decide)).1
